import Mathlib

/-!
Verification development for the `water-level` repository (1-D rain/water-flow
simulation).  The Rust sources in `src/rain_landscapes.rs`, `src/app.rs` are
embedded shallowly: the numeric type `f64` used for ground heights, water depths
and the tolerance is modelled by `ℚ` (exact arithmetic); the feature-gated
diagnostic potential `calc_state`, which the source computes with `f64::powf`
with exponent `1.4`, is modelled over `ℝ` with the real power function.
The unbounded stabilization loop is modelled with an explicit fuel parameter:
`none` means the loop did not finish within the given number of passes.
-/

/-- Embeds `Point` (`src/rain_landscapes.rs`): immutable ground height plus
mutable accumulated water. -/
structure Point where
  ground : ℚ
  water : ℚ
deriving DecidableEq, Repr

/-- Embeds `Point::with_height`: a dry point at ground height `h`. -/
def Point.with_height (h : ℚ) : Point :=
  { ground := h, water := 0 }

/-- Embeds `Point::get_height`: ground plus water. -/
def Point.get_height (p : Point) : ℚ :=
  p.ground + p.water

/-- Embeds `Point::rain`: add `cnt` water to the point. -/
def Point.rain (p : Point) (cnt : ℚ) : Point :=
  { p with water := p.water + cnt }

/-- Embeds `WaterUpdate` (`src/rain_landscapes.rs`): one proposed transfer of
`water` units from point `from_idx` to point `to_idx`.  The feature-gated
debugging copies of the two points are omitted. -/
structure WaterUpdate where
  from_idx : ℕ
  to_idx : ℕ
  water : ℚ
deriving DecidableEq, Repr

/-- Embeds the constant `VISCOSITY_COEF = 0.01` from `src/rain_landscapes.rs`. -/
def VISCOSITY_COEF : ℚ := 1 / 100

/-- Embeds `struct Landscape` (`src/rain_landscapes.rs`). -/
structure Landscape where
  points : List Point
  points_idx : List ℕ
  results : List ℚ
  precision : ℚ
deriving DecidableEq, Repr

/-- Embeds `Iter1D` (`src/rain_landscapes.rs`): the neighbor iterator state.
`iter` is a `u8` in the source; it only ever holds 0, 1 or 2. -/
structure Iter1D where
  idx : ℕ
  max : ℕ
  iter : ℕ
deriving DecidableEq, Repr

/-- Embeds `impl Iterator for Iter1D`, method `next`: returns the yielded index
together with the successor state, or `none`.  `self.max - 1` is `usize`
subtraction, modelled by truncated `ℕ` subtraction (in every reachable call
`max ≥ 1`, so no borrow occurs). -/
def Iter1D.next (s : Iter1D) : Option (ℕ × Iter1D) :=
  match s.iter with
  | 0 =>
    let s' := { s with iter := 1 }
    if s.idx > 0 then some (s.idx - 1, s')
    else if s.max > 1 then some (1, s') else none
  | 1 =>
    let s' := { s with iter := 2 }
    if s.idx = 0 then none
    else if s.idx < s.max - 1 then some (s.idx + 1, s') else none
  | _ => none

/-- Runs the iterator protocol: collect yielded items until the first `none`,
exactly as a Rust `for` loop does.  Three steps of fuel are always enough
because `iter` strictly increases and state 2 yields `none`. -/
def Iter1D.toListFuel : ℕ → Iter1D → List ℕ
  | 0, _ => []
  | fuel + 1, s =>
    match s.next with
    | none => []
    | some (x, s') => x :: Iter1D.toListFuel fuel s'

/-- Embeds `Landscape::neighbors`: the list of indices yielded by
`Iter1D { idx, max: points.len(), iter: 0 }`. -/
def Landscape.neighbors (ls : Landscape) (idx : ℕ) : List ℕ :=
  Iter1D.toListFuel 3 { idx := idx, max := ls.points.length, iter := 0 }

/-- Embeds `Landscape::create`.  Every height becomes a dry point; the priority
order is the index range sorted by descending initial height.  The source uses
`sort_unstable_by` with comparator `ph[j].partial_cmp(&ph[i])`; its tie order is
deterministic but unspecified, and is modelled here by the (deterministic)
insertion sort with the same descending comparator.  `results` starts as the
input heights and `precision` is the compile-time constant. -/
def Landscape.create (ph : List ℚ) : Landscape :=
  { points := ph.map Point.with_height
    points_idx :=
      List.insertionSort (fun i j => ph.getD j 0 ≤ ph.getD i 0) (List.range ph.length)
    results := ph
    precision := VISCOSITY_COEF }

/-- Rust indexing `points[i]` (panics when out of bounds; every verified call
is in bounds, where `getD` agrees with it). -/
def getP (ps : List Point) (i : ℕ) : Point :=
  ps.getD i { ground := 0, water := 0 }

/-- Embeds the `send_water_to` computation inside `Landscape::stabilize_water`:
the neighbors of `pi` whose current height lies more than `precision` below
`pi`'s current height. -/
def Landscape.sendWaterTo (ls : Landscape) (pi : ℕ) : List ℕ :=
  let ph := (getP ls.points pi).get_height
  (ls.neighbors pi).filter
    (fun ni => ph > (getP ls.points ni).get_height + ls.precision)

/-- Embeds the body of one `for pi in &self.points_idx` iteration of the scan in
`Landscape::stabilize_water`: the flow-updates recorded for source point `pi`.
The scan never mutates `points`, so reading the heights again in the inner loop
(as the source does) returns the same values as the first read. -/
def Landscape.updatesFor (ls : Landscape) (pi : ℕ) : List WaterUpdate :=
  let pw := (getP ls.points pi).water
  if pw ≤ ls.precision then []
  else
    let swt := ls.sendWaterTo pi
    if swt.isEmpty then []
    else
      let equal_fraction := pw / (swt.length : ℚ)
      swt.flatMap (fun ni =>
        let diff := (getP ls.points pi).get_height - (getP ls.points ni).get_height
        if diff > ls.precision then
          [{ from_idx := pi, to_idx := ni,
             water := if equal_fraction < diff / 2 then equal_fraction else diff / 2 }]
        else [])

/-- Embeds one full scan of `Landscape::stabilize_water`: the `water_update`
batch collected by visiting the points in priority order. -/
def Landscape.scanUpdates (ls : Landscape) : List WaterUpdate :=
  ls.points_idx.flatMap ls.updatesFor

/-- Embeds one iteration of `for wu in &mut water_update`: subtract the amount
at the source, then add it at the destination. -/
def applyOne (ps : List Point) (wu : WaterUpdate) : List Point :=
  let p := getP ps wu.from_idx
  let ps1 := ps.set wu.from_idx { p with water := p.water - wu.water }
  let q := getP ps1 wu.to_idx
  ps1.set wu.to_idx { q with water := q.water + wu.water }

/-- Embeds applying the whole batch of flow-updates of one pass. -/
def applyUpdates (ps : List Point) (l : List WaterUpdate) : List Point :=
  l.foldl applyOne ps

/-- One pass of the stabilization loop: scan, then apply the batch.  (When the
scan is empty this is the identity, matching the loop's exit.) -/
def Landscape.pass (ls : Landscape) : Landscape :=
  { ls with points := applyUpdates ls.points ls.scanUpdates }

/-- Embeds the loop of `Landscape::stabilize_water`.  The source loops without
bound; `fuel` bounds the number of passes in the model, and `none` means the
bound was reached before the landscape became stable.  The source returns
`Ok(())` on every exit, so no error value appears. -/
def Landscape.stabilize_water : ℕ → Landscape → Option Landscape
  | 0, _ => none
  | fuel + 1, ls =>
    if ls.scanUpdates.isEmpty then some ls
    else Landscape.stabilize_water fuel ls.pass

/-- Embeds the `for (idx, p) in self.points.iter_mut().enumerate()` loop of
`Landscape::rain`: point `i` receives `rain_distr i` water. -/
def rainAll (rain_distr : ℕ → ℚ) (ps : List Point) : List Point :=
  ps.mapIdx (fun i p => p.rain (rain_distr i))

/-- Embeds `Landscape::rain` (trait impl in `src/rain_landscapes.rs`): add rain
to every point, stabilize, and return the landscape together with the
`Result<&[PointHeight]>` value.  When `return_result` holds, the source writes
`p.get_height()` into `results[i]` for `i = 0..n-1` (with `results.len() = n`
in every landscape built by `create`, this replaces `results` by the current
height list) and returns the `results` slice; otherwise it returns the empty
slice.  The source never constructs an `Err`, so the `Except` error branch is
never used.  `none` models stabilization running past `fuel` passes. -/
def Landscape.rain (fuel : ℕ) (ls : Landscape) (rain_distr : ℕ → ℚ)
    (return_result : Bool) : Option (Landscape × Except String (List ℚ)) :=
  let ls1 := { ls with points := rainAll rain_distr ls.points }
  match Landscape.stabilize_water fuel ls1 with
  | none => none
  | some ls2 =>
    if return_result then
      let ls3 := { ls2 with results := ls2.points.map Point.get_height }
      some (ls3, Except.ok ls3.results)
    else
      some (ls2, Except.ok [])

/-- Embeds the provided trait method `Landscape::rain_uniform` (`src/app.rs`):
rain with the constant distribution. -/
def Landscape.rain_uniform (fuel : ℕ) (ls : Landscape) (cnt : ℚ)
    (return_result : Bool) : Option (Landscape × Except String (List ℚ)) :=
  Landscape.rain fuel ls (fun _ => cnt) return_result

/-- Embeds the trait method `precision` of the impl in
`src/rain_landscapes.rs`: returns the stored tolerance field. -/
def Landscape.precisionVal (ls : Landscape) : ℚ :=
  ls.precision

/-- Total water of a point list (`Σ water`), the quantity of the mass
conservation property. -/
def totalWater (ps : List Point) : ℚ :=
  (ps.map Point.water).sum

/-- Sum of the amounts flowing out of point `i` in a batch. -/
def outFlow (l : List WaterUpdate) (i : ℕ) : ℚ :=
  (l.map (fun wu => if wu.from_idx = i then wu.water else 0)).sum

/-- Sum of the amounts flowing into point `i` in a batch. -/
def inFlow (l : List WaterUpdate) (i : ℕ) : ℚ :=
  (l.map (fun wu => if wu.to_idx = i then wu.water else 0)).sum

/-- Embeds the feature-gated `Landscape::calc_state`: the diagnostic potential
`Φ = Σ height(p)^1.4`.  The source computes it as `(h as f64).powf(1.4)`;
here the heights are coerced from `ℚ` to `ℝ` and raised with the real power
function. -/
noncomputable def Landscape.calc_state (ls : Landscape) : ℝ :=
  (ls.points.map (fun p => ((p.get_height : ℚ) : ℝ) ^ (1.4 : ℝ))).sum

/-- Embeds the feature-gated `Landscape::calc_state_lbound`: the lower bound
`Φ_min = Σ ground(p)^1.4` (fully drained state). -/
noncomputable def Landscape.calc_state_lbound (ls : Landscape) : ℝ :=
  (ls.points.map (fun p => ((p.ground : ℚ) : ℝ) ^ (1.4 : ℝ))).sum

/-- The neighbor index set exactly as the specification words it: `{i-1}` when
`i > 0`, else `{1}` when `i = 0` and `n > 1`, plus `{i+1}` when `i > 0` and
`i < n-1`.  Used to compare the iterator against the spec sentence. -/
def specNeighbors (i n : ℕ) : List ℕ :=
  (if i > 0 then [i - 1] else if n > 1 then [1] else []) ++
    (if i > 0 ∧ i < n - 1 then [i + 1] else [])

/-! ## Helper lemmas: indexing and batch application -/

theorem getP_set (ps : List Point) (j : ℕ) (a : Point) (i : ℕ) :
    getP (ps.set j a) i = if j = i ∧ j < ps.length then a else getP ps i := by
  simp only [getP, List.getD_eq_getElem?_getD, List.getElem?_set]
  by_cases hji : j = i
  · subst hji
    by_cases hj : j < ps.length
    · simp [hj]
    · simp [hj, List.getElem?_eq_none (le_of_not_lt hj)]
  · simp [hji]

theorem length_applyOne (ps : List Point) (wu : WaterUpdate) :
    (applyOne ps wu).length = ps.length := by
  simp [applyOne, List.length_set]

theorem length_applyUpdates (l : List WaterUpdate) (ps : List Point) :
    (applyUpdates ps l).length = ps.length := by
  induction l generalizing ps with
  | nil => rfl
  | cons wu l ih =>
    have h : applyUpdates ps (wu :: l) = applyUpdates (applyOne ps wu) l := rfl
    rw [h, ih, length_applyOne]

theorem getP_applyOne (ps : List Point) (wu : WaterUpdate)
    (hf : wu.from_idx < ps.length) (ht : wu.to_idx < ps.length) (i : ℕ) :
    getP (applyOne ps wu) i =
      { getP ps i with
        water := (getP ps i).water
          - (if wu.from_idx = i then wu.water else 0)
          + (if wu.to_idx = i then wu.water else 0) } := by
  unfold applyOne
  simp only [getP_set, List.length_set]
  by_cases h2 : wu.from_idx = i
  · subst h2
    by_cases h1 : wu.to_idx = wu.from_idx
    · simp only [h1, hf, ht, and_self, if_true, if_pos]
    · simp [h1, hf, ht, getP_set]
  · by_cases h1 : wu.to_idx = i
    · subst h1
      simp [h2, ht, getP_set]
    · simp [h1, h2, getP_set]

theorem getP_applyUpdates (l : List WaterUpdate) (ps : List Point)
    (hl : ∀ wu ∈ l, wu.from_idx < ps.length ∧ wu.to_idx < ps.length) (i : ℕ) :
    getP (applyUpdates ps l) i =
      { getP ps i with
        water := (getP ps i).water + inFlow l i - outFlow l i } := by
  induction l generalizing ps with
  | nil => simp [applyUpdates, inFlow, outFlow]
  | cons wu l ih =>
    have h : applyUpdates ps (wu :: l) = applyUpdates (applyOne ps wu) l := rfl
    have hwu := hl wu (List.mem_cons_self wu l)
    have hl' : ∀ v ∈ l, v.from_idx < (applyOne ps wu).length ∧ v.to_idx < (applyOne ps wu).length := by
      intro v hv
      rw [length_applyOne]
      exact hl v (List.mem_cons_of_mem wu hv)
    rw [h, ih (applyOne ps wu) hl' , getP_applyOne ps wu hwu.1 hwu.2 i]
    simp only [inFlow, outFlow, List.map_cons, List.sum_cons]
    congr 1
    ring

theorem sum_map_getP {M : Type*} [AddCommMonoid M] (f : Point → M) (ps : List Point) :
    (ps.map f).sum = ∑ i ∈ Finset.range ps.length, f (getP ps i) := by
  induction ps with
  | nil => simp
  | cons p ps ih =>
    rw [List.map_cons, List.sum_cons, List.length_cons, Finset.sum_range_succ', ih]
    simp only [getP, List.getD_cons_succ, List.getD_cons_zero]
    exact (add_comm _ _)

/-! ## Helper lemmas: the neighbor iterator -/

theorem neighbors_eq_spec (ls : Landscape) (i : ℕ) :
    ls.neighbors i = specNeighbors i ls.points.length := by
  unfold Landscape.neighbors specNeighbors
  by_cases h0 : 0 < i
  · by_cases h2 : i < ls.points.length - 1
    · simp [Iter1D.toListFuel, Iter1D.next, h0, h2, Nat.pos_iff_ne_zero.mp h0]
    · simp [Iter1D.toListFuel, Iter1D.next, h0, h2, Nat.pos_iff_ne_zero.mp h0]
  · have h0' : i = 0 := Nat.eq_zero_of_not_pos h0
    subst h0'
    by_cases h1 : 1 < ls.points.length
    · simp [Iter1D.toListFuel, Iter1D.next, h1]
    · simp [Iter1D.toListFuel, Iter1D.next, h1]

theorem mem_specNeighbors {i n j : ℕ} (_hn : 1 ≤ n) (hi : i < n)
    (hj : j ∈ specNeighbors i n) : j < n ∧ j ≠ i := by
  unfold specNeighbors at hj
  rcases List.mem_append.mp hj with hj | hj
  · by_cases h0 : 0 < i
    · simp [h0] at hj
      omega
    · have h0' : i = 0 := Nat.eq_zero_of_not_pos h0
      subst h0'
      by_cases h1 : 1 < n
      · simp [h1] at hj
        omega
      · simp [h1] at hj
  · by_cases hc : 0 < i ∧ i < n - 1
    · simp [hc] at hj
      omega
    · simp [hc] at hj

/-! ## Helper lemmas: flow sums over a batch -/

theorem sum_range_inFlow (l : List WaterUpdate) (n : ℕ)
    (hl : ∀ wu ∈ l, wu.to_idx < n) :
    ∑ i ∈ Finset.range n, inFlow l i = (l.map WaterUpdate.water).sum := by
  induction l with
  | nil => simp [inFlow]
  | cons wu l ih =>
    have h1 : ∀ v ∈ l, v.to_idx < n := fun v hv => hl v (List.mem_cons_of_mem wu hv)
    have h2 : wu.to_idx ∈ Finset.range n :=
      Finset.mem_range.mpr (hl wu (List.mem_cons_self wu l))
    simp only [inFlow, List.map_cons, List.sum_cons]
    rw [Finset.sum_add_distrib, Finset.sum_ite_eq (Finset.range n) wu.to_idx fun _ => wu.water]
    rw [if_pos h2]
    have := ih h1
    simp only [inFlow] at this
    rw [this]

theorem sum_range_outFlow (l : List WaterUpdate) (n : ℕ)
    (hl : ∀ wu ∈ l, wu.from_idx < n) :
    ∑ i ∈ Finset.range n, outFlow l i = (l.map WaterUpdate.water).sum := by
  induction l with
  | nil => simp [outFlow]
  | cons wu l ih =>
    have h1 : ∀ v ∈ l, v.from_idx < n := fun v hv => hl v (List.mem_cons_of_mem wu hv)
    have h2 : wu.from_idx ∈ Finset.range n :=
      Finset.mem_range.mpr (hl wu (List.mem_cons_self wu l))
    simp only [outFlow, List.map_cons, List.sum_cons]
    rw [Finset.sum_add_distrib, Finset.sum_ite_eq (Finset.range n) wu.from_idx fun _ => wu.water]
    rw [if_pos h2]
    have := ih h1
    simp only [outFlow] at this
    rw [this]

theorem totalWater_applyUpdates (l : List WaterUpdate) (ps : List Point)
    (hl : ∀ wu ∈ l, wu.from_idx < ps.length ∧ wu.to_idx < ps.length) :
    totalWater (applyUpdates ps l) = totalWater ps := by
  unfold totalWater
  rw [sum_map_getP, sum_map_getP, length_applyUpdates]
  have hcong : ∀ i ∈ Finset.range ps.length,
      Point.water (getP (applyUpdates ps l) i) =
        (getP ps i).water + inFlow l i - outFlow l i := by
    intro i _
    rw [getP_applyUpdates l ps hl i]
  rw [Finset.sum_congr rfl hcong, Finset.sum_sub_distrib, Finset.sum_add_distrib,
    sum_range_inFlow l ps.length (fun wu hwu => (hl wu hwu).2),
    sum_range_outFlow l ps.length (fun wu hwu => (hl wu hwu).1)]
  ring

/-! ## Helper lemmas: characterizing the scan -/

theorem mem_sendWaterTo {ls : Landscape} {pi ni : ℕ} (h : ni ∈ ls.sendWaterTo pi) :
    ni ∈ ls.neighbors pi ∧
      (getP ls.points ni).get_height + ls.precision < (getP ls.points pi).get_height := by
  unfold Landscape.sendWaterTo at h
  simp only [List.mem_filter, decide_eq_true_eq, gt_iff_lt] at h
  exact h

theorem mem_updatesFor {ls : Landscape} {pj : ℕ} {wu : WaterUpdate}
    (h : wu ∈ ls.updatesFor pj) :
    wu.from_idx = pj ∧
    ls.precision < (getP ls.points pj).water ∧
    wu.to_idx ∈ ls.sendWaterTo pj ∧
    ls.precision <
      (getP ls.points pj).get_height - (getP ls.points wu.to_idx).get_height ∧
    wu.water =
      (if (getP ls.points pj).water / ((ls.sendWaterTo pj).length : ℚ) <
            ((getP ls.points pj).get_height - (getP ls.points wu.to_idx).get_height) / 2
        then (getP ls.points pj).water / ((ls.sendWaterTo pj).length : ℚ)
        else ((getP ls.points pj).get_height - (getP ls.points wu.to_idx).get_height) / 2) := by
  simp only [Landscape.updatesFor] at h
  by_cases hpw : (getP ls.points pj).water ≤ ls.precision
  · simp [hpw] at h
  · rw [if_neg hpw] at h
    by_cases hsw : (ls.sendWaterTo pj).isEmpty = true
    · simp [hsw] at h
    · rw [if_neg hsw] at h
      obtain ⟨ni, hni, hwu⟩ := List.mem_flatMap.mp h
      by_cases hd : ls.precision <
          (getP ls.points pj).get_height - (getP ls.points ni).get_height
      · rw [if_pos hd] at hwu
        rw [List.mem_singleton] at hwu
        subst hwu
        exact ⟨rfl, not_le.mp hpw, hni, hd, rfl⟩
      · rw [if_neg hd] at hwu
        simp at hwu

theorem mem_scanUpdates {ls : Landscape} {wu : WaterUpdate} (h : wu ∈ ls.scanUpdates) :
    wu.from_idx ∈ ls.points_idx ∧ wu ∈ ls.updatesFor wu.from_idx := by
  simp only [Landscape.scanUpdates] at h
  obtain ⟨pj, hpj, hwu⟩ := List.mem_flatMap.mp h
  have hfrom := (mem_updatesFor hwu).1
  rw [hfrom]
  exact ⟨hpj, hwu⟩

theorem updatesFor_water_pos {ls : Landscape} {pj : ℕ} {wu : WaterUpdate}
    (hε : 0 ≤ ls.precision) (h : wu ∈ ls.updatesFor pj) : 0 < wu.water := by
  obtain ⟨-, hpw, hto, hd, hw⟩ := mem_updatesFor h
  rw [hw]
  have hk : 0 < ((ls.sendWaterTo pj).length : ℚ) := by
    have h1 : (ls.sendWaterTo pj) ≠ [] := List.ne_nil_of_mem hto
    have h2 : 0 < (ls.sendWaterTo pj).length := List.length_pos.mpr h1
    exact_mod_cast h2
  have hef : 0 < (getP ls.points pj).water / ((ls.sendWaterTo pj).length : ℚ) :=
    div_pos (lt_of_le_of_lt hε hpw) hk
  have hd2 : 0 <
      ((getP ls.points pj).get_height - (getP ls.points wu.to_idx).get_height) / 2 := by
    have := lt_of_le_of_lt hε hd
    linarith
  split_ifs <;> assumption

theorem sum_flatMap_water_le {α : Type*} (l : List α) (g : α → List WaterUpdate) (c : ℚ)
    (hc : 0 ≤ c) (hg : ∀ a ∈ l, ((g a).map WaterUpdate.water).sum ≤ c) :
    ((l.flatMap g).map WaterUpdate.water).sum ≤ (l.length : ℚ) * c := by
  induction l with
  | nil => simp
  | cons a l ih =>
    rw [List.flatMap_cons, List.map_append, List.sum_append, List.length_cons]
    have h1 := hg a (List.mem_cons_self a l)
    have h2 := ih (fun b hb => hg b (List.mem_cons_of_mem _ hb))
    push_cast
    linarith

theorem sum_water_updatesFor_le (ls : Landscape) (pj : ℕ)
    (hε : 0 ≤ ls.precision) (hw : 0 ≤ (getP ls.points pj).water) :
    ((ls.updatesFor pj).map WaterUpdate.water).sum ≤ (getP ls.points pj).water := by
  simp only [Landscape.updatesFor]
  by_cases hpw : (getP ls.points pj).water ≤ ls.precision
  · simpa [hpw] using hw
  · rw [if_neg hpw]
    by_cases hsw : (ls.sendWaterTo pj).isEmpty = true
    · simpa [hsw] using hw
    · rw [if_neg hsw]
      have hk : 0 < (ls.sendWaterTo pj).length := by
        cases hsw' : ls.sendWaterTo pj with
        | nil => rw [hsw'] at hsw; simp at hsw
        | cons a l => simp [hsw']
      have hkq : 0 < ((ls.sendWaterTo pj).length : ℚ) := by exact_mod_cast hk
      have hef_nonneg : 0 ≤ (getP ls.points pj).water / ((ls.sendWaterTo pj).length : ℚ) :=
        le_of_lt (div_pos (lt_of_le_of_lt hε (not_le.mp hpw)) hkq)
      refine le_trans (sum_flatMap_water_le _ _ _ hef_nonneg ?_) ?_
      · intro a _
        by_cases hda : ls.precision <
            (getP ls.points pj).get_height - (getP ls.points a).get_height
        · rw [if_pos hda]
          simp only [List.map_cons, List.map_nil, List.sum_cons, List.sum_nil, add_zero]
          split_ifs with hc
          · exact le_refl _
          · exact le_of_not_lt hc
        · rw [if_neg hda]
          simpa using hef_nonneg
      · rw [mul_div_cancel₀]
        exact ne_of_gt hkq

theorem ite_lt_eq_min (a b : ℚ) : (if a < b then a else b) = min a b := by
  by_cases h : a < b
  · simp [h, min_eq_left h.le]
  · simp [h, min_eq_right (not_lt.mp h)]

theorem outFlow_append (l1 l2 : List WaterUpdate) (i : ℕ) :
    outFlow (l1 ++ l2) i = outFlow l1 i + outFlow l2 i := by
  simp [outFlow, List.map_append, List.sum_append]

theorem outFlow_updatesFor_ne {ls : Landscape} {pj i : ℕ} (hne : pj ≠ i) :
    outFlow (ls.updatesFor pj) i = 0 := by
  unfold outFlow
  apply List.sum_eq_zero
  intro x hx
  obtain ⟨wu, hwu, hxeq⟩ := List.mem_map.mp hx
  have hfrom := (mem_updatesFor hwu).1
  rw [← hxeq, hfrom, if_neg hne]

theorem outFlow_flatMap_zero (ls : Landscape) (pidx : List ℕ) (i : ℕ) (hni : i ∉ pidx) :
    outFlow (pidx.flatMap ls.updatesFor) i = 0 := by
  induction pidx with
  | nil => simp [outFlow]
  | cons a l ih =>
    rw [List.flatMap_cons, outFlow_append]
    have hai : a ≠ i := fun h => hni (h ▸ List.mem_cons_self a l)
    rw [outFlow_updatesFor_ne hai, ih (fun h => hni (List.mem_cons_of_mem a h)), add_zero]

theorem outFlow_updatesFor_self (ls : Landscape) (i : ℕ) :
    outFlow (ls.updatesFor i) i = ((ls.updatesFor i).map WaterUpdate.water).sum := by
  unfold outFlow
  congr 1
  apply List.map_congr_left
  intro wu hwu
  rw [(mem_updatesFor hwu).1, if_pos rfl]

theorem outFlow_flatMap_le (ls : Landscape) (pidx : List ℕ) (i : ℕ) (hnd : pidx.Nodup)
    (hS : 0 ≤ ((ls.updatesFor i).map WaterUpdate.water).sum) :
    outFlow (pidx.flatMap ls.updatesFor) i ≤ ((ls.updatesFor i).map WaterUpdate.water).sum := by
  induction pidx with
  | nil => simpa [outFlow] using hS
  | cons a l ih =>
    rw [List.flatMap_cons, outFlow_append]
    obtain ⟨hna, hndl⟩ := List.nodup_cons.mp hnd
    by_cases hai : a = i
    · subst hai
      rw [outFlow_flatMap_zero ls l a hna, outFlow_updatesFor_self, add_zero]
    · rw [outFlow_updatesFor_ne hai]
      simpa using ih hndl

theorem water_nonneg_getP {ps : List Point} (hw : ∀ p ∈ ps, 0 ≤ p.water) (i : ℕ) :
    0 ≤ (getP ps i).water := by
  by_cases hi : i < ps.length
  · rw [getP, List.getD_eq_getElem _ _ hi]
    exact hw _ (List.getElem_mem hi)
  · rw [getP, List.getD_eq_getElem?_getD, List.getElem?_eq_none (le_of_not_lt hi)]
    exact le_refl 0

theorem scan_inBounds {ls : Landscape}
    (hidx : ∀ j ∈ ls.points_idx, j < ls.points.length)
    {wu : WaterUpdate} (h : wu ∈ ls.scanUpdates) :
    wu.from_idx < ls.points.length ∧ wu.to_idx < ls.points.length ∧
      wu.to_idx ≠ wu.from_idx := by
  obtain ⟨hmem, hupd⟩ := mem_scanUpdates h
  have hf : wu.from_idx < ls.points.length := hidx _ hmem
  obtain ⟨-, -, hto, -, -⟩ := mem_updatesFor hupd
  have hnb := (mem_sendWaterTo hto).1
  rw [neighbors_eq_spec] at hnb
  have hn1 : 1 ≤ ls.points.length := Nat.lt_of_le_of_lt (Nat.zero_le _) hf
  have := mem_specNeighbors hn1 hf hnb
  exact ⟨hf, this.1, this.2⟩

theorem scan_water_pos {ls : Landscape} (hε : 0 ≤ ls.precision)
    {wu : WaterUpdate} (h : wu ∈ ls.scanUpdates) : 0 < wu.water :=
  updatesFor_water_pos hε (mem_scanUpdates h).2

theorem inFlow_nonneg {l : List WaterUpdate} (hpos : ∀ wu ∈ l, 0 ≤ wu.water) (i : ℕ) :
    0 ≤ inFlow l i := by
  apply List.sum_nonneg
  intro x hx
  obtain ⟨wu, hwu, hxeq⟩ := List.mem_map.mp hx
  rw [← hxeq]
  split_ifs
  · exact hpos wu hwu
  · exact le_refl 0

theorem pass_water_nonneg {ls : Landscape} (hnd : ls.points_idx.Nodup)
    (hidx : ∀ j ∈ ls.points_idx, j < ls.points.length) (hε : 0 ≤ ls.precision)
    (hw : ∀ p ∈ ls.points, 0 ≤ p.water) :
    ∀ p ∈ (ls.pass).points, 0 ≤ p.water := by
  intro p hp
  obtain ⟨i, hi, rfl⟩ := List.mem_iff_getElem.mp hp
  have hbounds : ∀ wu ∈ ls.scanUpdates,
      wu.from_idx < ls.points.length ∧ wu.to_idx < ls.points.length :=
    fun wu hwu => ⟨(scan_inBounds hidx hwu).1, (scan_inBounds hidx hwu).2.1⟩
  have hpasspts : (ls.pass).points = applyUpdates ls.points ls.scanUpdates := rfl
  have hgp : (ls.pass).points[i] = getP (ls.pass).points i :=
    (List.getD_eq_getElem _ _ hi).symm
  rw [hgp, hpasspts, getP_applyUpdates ls.scanUpdates ls.points hbounds i]
  have hin : 0 ≤ inFlow ls.scanUpdates i :=
    inFlow_nonneg (fun wu hwu => le_of_lt (scan_water_pos hε hwu)) i
  have hS0 : 0 ≤ ((ls.updatesFor i).map WaterUpdate.water).sum := by
    apply List.sum_nonneg
    intro x hx
    obtain ⟨wu, hwu, hxeq⟩ := List.mem_map.mp hx
    rw [← hxeq]
    exact le_of_lt (updatesFor_water_pos hε hwu)
  have hout : outFlow ls.scanUpdates i ≤ (getP ls.points i).water :=
    le_trans (outFlow_flatMap_le ls ls.points_idx i hnd hS0)
      (sum_water_updatesFor_le ls i hε (water_nonneg_getP hw i))
  have hwi : 0 ≤ (getP ls.points i).water := water_nonneg_getP hw i
  show 0 ≤ (getP ls.points i).water + inFlow ls.scanUpdates i - outFlow ls.scanUpdates i
  linarith

/-! ## Helper lemmas: fields preserved by stabilization and rain -/

theorem stabilize_water_fields :
    ∀ (fuel : ℕ) (ls ls' : Landscape), Landscape.stabilize_water fuel ls = some ls' →
      ls'.points_idx = ls.points_idx ∧ ls'.precision = ls.precision ∧
        ls'.results = ls.results := by
  intro fuel
  induction fuel with
  | zero =>
    intro ls ls' h
    exact absurd h (by simp [Landscape.stabilize_water])
  | succ n ih =>
    intro ls ls' h
    unfold Landscape.stabilize_water at h
    by_cases hs : ls.scanUpdates.isEmpty = true
    · rw [if_pos hs] at h
      injection h with h
      subst h
      exact ⟨rfl, rfl, rfl⟩
    · rw [if_neg hs] at h
      have := ih ls.pass ls' h
      simpa [Landscape.pass] using this

theorem rain_fields (fuel : ℕ) (ls : Landscape) (f : ℕ → ℚ) (b : Bool)
    (out : Landscape × Except String (List ℚ))
    (h : Landscape.rain fuel ls f b = some out) :
    out.1.points_idx = ls.points_idx ∧ out.1.precision = ls.precision := by
  simp only [Landscape.rain] at h
  rcases hst : Landscape.stabilize_water fuel { ls with points := rainAll f ls.points }
    with _ | ls2
  · rw [hst] at h
    exact absurd h (by simp)
  · rw [hst] at h
    have hfields := stabilize_water_fields fuel _ ls2 hst
    cases b
    · simp only [if_neg (by simp : ¬ (false = true))] at h
      injection h with h
      rw [← h]
      exact ⟨hfields.1, hfields.2.1⟩
    · simp only [if_pos rfl] at h
      injection h with h
      rw [← h]
      exact ⟨hfields.1, hfields.2.1⟩

theorem getP_rainAll (f : ℕ → ℚ) (ps : List Point) (i : ℕ) (hi : i < ps.length) :
    getP (rainAll f ps) i = (getP ps i).rain (f i) := by
  have hlen : (rainAll f ps).length = ps.length := by
    simp [rainAll]
  rw [getP, List.getD_eq_getElem _ _ (by rw [hlen]; exact hi), getP,
    List.getD_eq_getElem _ _ hi]
  simp [rainAll, List.getElem_mapIdx]

/-! ## Claim theorems -/

/-- C1.  Mass conservation per pass: one pass of the stabilization loop (a full
scan in priority order producing the batch of flow-updates, followed by applying
the whole batch) leaves `Σ water` over all points unchanged, because each
applied update subtracts at the source exactly what it adds at the destination.
The hypothesis states that the stored priority order only holds in-bounds
indices, which `Landscape.create` guarantees. -/
theorem mass_conservation_per_pass (ls : Landscape)
    (hidx : ∀ j ∈ ls.points_idx, j < ls.points.length) :
    totalWater (ls.pass).points = totalWater ls.points :=
  totalWater_applyUpdates ls.scanUpdates ls.points
    (fun wu hwu => ⟨(scan_inBounds hidx hwu).1, (scan_inBounds hidx hwu).2.1⟩)

/-- Witness for C1 at a concrete landscape (heights `[3,1,1]` after one unit of
uniform rain). -/
theorem mass_conservation_per_pass_witness :
    totalWater ((Landscape.pass
      { points := [⟨3, 1⟩, ⟨1, 1⟩, ⟨1, 1⟩], points_idx := [0, 1, 2],
        results := [3, 1, 1], precision := 1 / 100 }).points) =
    totalWater [⟨3, 1⟩, ⟨1, 1⟩, ⟨1, 1⟩] :=
  mass_conservation_per_pass _ (by decide)

/-- C2.  Neighbor locator semantics: for `1 ≤ n` and `i < n` the iterator
yields exactly the set the specification describes (`{i-1}` for `i > 0`, else
`{1}` when `n > 1`; plus `{i+1}` when `i > 0` and `i < n-1`); it has at most
two elements, every element is in bounds and distinct from `i`, and it is empty
when `n = 1`. -/
theorem neighbors_characterization (ls : Landscape) (i : ℕ)
    (hn : 1 ≤ ls.points.length) (hi : i < ls.points.length) :
    ls.neighbors i = specNeighbors i ls.points.length ∧
    (ls.neighbors i).length ≤ 2 ∧
    (∀ j ∈ ls.neighbors i, j < ls.points.length ∧ j ≠ i) ∧
    (ls.points.length = 1 → ls.neighbors i = []) := by
  refine ⟨neighbors_eq_spec ls i, ?_, ?_, ?_⟩
  · rw [neighbors_eq_spec]
    unfold specNeighbors
    split_ifs <;> simp
  · intro j hj
    rw [neighbors_eq_spec] at hj
    exact mem_specNeighbors hn hi hj
  · intro h1
    have hi0 : i = 0 := by omega
    subst hi0
    rw [neighbors_eq_spec, h1]
    unfold specNeighbors
    simp

/-- Witness for C2 at `i = 1`, `n = 3`. -/
theorem neighbors_characterization_witness :
    ({ points := [⟨3, 0⟩, ⟨1, 0⟩, ⟨1, 0⟩], points_idx := [0, 1, 2], results := [3, 1, 1], precision := 1 / 100 } : Landscape).neighbors 1 = specNeighbors 1 3 ∧
    (({ points := [⟨3, 0⟩, ⟨1, 0⟩, ⟨1, 0⟩], points_idx := [0, 1, 2], results := [3, 1, 1], precision := 1 / 100 } : Landscape).neighbors 1).length ≤ 2 ∧
    (∀ j ∈ ({ points := [⟨3, 0⟩, ⟨1, 0⟩, ⟨1, 0⟩], points_idx := [0, 1, 2], results := [3, 1, 1], precision := 1 / 100 } : Landscape).neighbors 1, j < 3 ∧ j ≠ 1) ∧
    ((3 : ℕ) = 1 → ({ points := [⟨3, 0⟩, ⟨1, 0⟩, ⟨1, 0⟩], points_idx := [0, 1, 2], results := [3, 1, 1], precision := 1 / 100 } : Landscape).neighbors 1 = []) :=
  neighbors_characterization _ 1 (by decide) (by decide)

/-- C5.  Idempotence: a landscape whose scan (in priority order) produces no
flow-updates is left exactly as it is: stabilization exits successfully after
that single pass for every positive fuel bound, and a pass changes nothing. -/
theorem stabilization_idempotent (ls : Landscape) (hstable : ls.scanUpdates = []) :
    (∀ fuel : ℕ, Landscape.stabilize_water (fuel + 1) ls = some ls) ∧ ls.pass = ls := by
  constructor
  · intro fuel
    unfold Landscape.stabilize_water
    rw [hstable]
    simp
  · unfold Landscape.pass
    rw [hstable]
    rfl

/-- Witness for C5 at a concrete dry (hence stable) landscape. -/
theorem stabilization_idempotent_witness :
    Landscape.stabilize_water 1 { points := [⟨2, 0⟩, ⟨1, 0⟩], points_idx := [0, 1], results := [2, 1], precision := 1 / 100 } = some { points := [⟨2, 0⟩, ⟨1, 0⟩], points_idx := [0, 1], results := [2, 1], precision := 1 / 100 } ∧
    Landscape.pass { points := [⟨2, 0⟩, ⟨1, 0⟩], points_idx := [0, 1], results := [2, 1], precision := 1 / 100 } = { points := [⟨2, 0⟩, ⟨1, 0⟩], points_idx := [0, 1], results := [2, 1], precision := 1 / 100 } := by
  have hstable : ({ points := [⟨2, 0⟩, ⟨1, 0⟩], points_idx := [0, 1], results := [2, 1], precision := 1 / 100 } : Landscape).scanUpdates = [] := by
    norm_num [Landscape.scanUpdates, Landscape.updatesFor, getP]
  have h := stabilization_idempotent _ hstable
  exact ⟨h.1 0, h.2⟩

/-- C3.  Flow cap and no-overshoot: every recorded flow-update has amount
`min(w_p / k, d / 2)` where `w_p` is the source's water at scan time, `k` the
number of downhill candidates, and `d > ε` the height difference at recording
time; applying that single update alone leaves the source's height at least
the destination's post-update height. -/
theorem flow_cap_no_overshoot (ls : Landscape)
    (hidx : ∀ j ∈ ls.points_idx, j < ls.points.length)
    (wu : WaterUpdate) (h : wu ∈ ls.scanUpdates) :
    ls.precision <
      (getP ls.points wu.from_idx).get_height - (getP ls.points wu.to_idx).get_height ∧
    wu.water = min
      ((getP ls.points wu.from_idx).water / ((ls.sendWaterTo wu.from_idx).length : ℚ))
      (((getP ls.points wu.from_idx).get_height -
          (getP ls.points wu.to_idx).get_height) / 2) ∧
    (getP (applyOne ls.points wu) wu.to_idx).get_height ≤
      (getP (applyOne ls.points wu) wu.from_idx).get_height := by
  obtain ⟨hmem, hupd⟩ := mem_scanUpdates h
  obtain ⟨-, hpw, hto, hd, hwater⟩ := mem_updatesFor hupd
  obtain ⟨hf, htlt, hne⟩ := scan_inBounds hidx h
  have hmin : wu.water = min
      ((getP ls.points wu.from_idx).water / ((ls.sendWaterTo wu.from_idx).length : ℚ))
      (((getP ls.points wu.from_idx).get_height -
          (getP ls.points wu.to_idx).get_height) / 2) := by
    rw [hwater, ite_lt_eq_min]
  refine ⟨hd, hmin, ?_⟩
  have h2 : wu.water ≤ ((getP ls.points wu.from_idx).get_height -
      (getP ls.points wu.to_idx).get_height) / 2 := hmin ▸ min_le_right _ _
  have hfromto : wu.from_idx ≠ wu.to_idx := Ne.symm hne
  rw [getP_applyOne ls.points wu hf htlt, getP_applyOne ls.points wu hf htlt]
  simp only [Point.get_height, if_neg hfromto, if_neg hne, eq_self_iff_true, if_true]
  set Hf := (getP ls.points wu.from_idx).ground + (getP ls.points wu.from_idx).water with hHf
  set Ht := (getP ls.points wu.to_idx).ground + (getP ls.points wu.to_idx).water with hHt
  have hd' : ls.precision < Hf - Ht := by
    simpa [Point.get_height, hHf, hHt] using hd
  have h2' : wu.water ≤ (Hf - Ht) / 2 := by
    simpa [Point.get_height, hHf, hHt] using h2
  linarith

/-- Witness for C3: heights `[5, 1]` (ground `3` plus water `2` against ground
`1`), producing the single update `0 → 1` of amount `2`. -/
theorem flow_cap_no_overshoot_witness :
    (1 / 100 : ℚ) < (getP [⟨3, 2⟩, ⟨1, 0⟩] 0).get_height - (getP [⟨3, 2⟩, ⟨1, 0⟩] 1).get_height ∧
    (2 : ℚ) = min ((getP [⟨3, 2⟩, ⟨1, 0⟩] 0).water / ((({ points := [⟨3, 2⟩, ⟨1, 0⟩], points_idx := [0, 1], results := [3, 1], precision := 1 / 100 } : Landscape).sendWaterTo 0).length : ℚ)) (((getP [⟨3, 2⟩, ⟨1, 0⟩] 0).get_height - (getP [⟨3, 2⟩, ⟨1, 0⟩] 1).get_height) / 2) ∧
    (getP (applyOne [⟨3, 2⟩, ⟨1, 0⟩] ⟨0, 1, 2⟩) 1).get_height ≤
      (getP (applyOne [⟨3, 2⟩, ⟨1, 0⟩] ⟨0, 1, 2⟩) 0).get_height := by
  have hscan : ({ points := [⟨3, 2⟩, ⟨1, 0⟩], points_idx := [0, 1], results := [3, 1], precision := 1 / 100 } : Landscape).scanUpdates = [⟨0, 1, 2⟩] := by
    norm_num [Landscape.scanUpdates, Landscape.updatesFor, Landscape.sendWaterTo,
      Landscape.neighbors, Iter1D.toListFuel, Iter1D.next, getP, Point.get_height,
      List.filter, List.flatMap]
  have h := flow_cap_no_overshoot
    { points := [⟨3, 2⟩, ⟨1, 0⟩], points_idx := [0, 1], results := [3, 1], precision := 1 / 100 }
    (by decide) ⟨0, 1, 2⟩ (by rw [hscan]; exact List.mem_singleton.mpr rfl)
  exact h

/-- C4.  Non-negative water: when every point's water is nonnegative, both
rainfall injection with a nonnegative distribution and one full pass of the
stabilization loop keep every point's water nonnegative (each source sends at
most `w/k` to each of its `k` candidates, so its total outflow is at most its
pre-pass water).  The side conditions on `points_idx` (no duplicates, in
bounds) and on the tolerance (`0 ≤ ε`) hold in every landscape built by
`Landscape.create`. -/
theorem water_nonneg_invariant (ls : Landscape) (f : ℕ → ℚ)
    (hnd : ls.points_idx.Nodup)
    (hidx : ∀ j ∈ ls.points_idx, j < ls.points.length)
    (hε : 0 ≤ ls.precision)
    (hw : ∀ p ∈ ls.points, 0 ≤ p.water)
    (hf : ∀ i, 0 ≤ f i) :
    (∀ p ∈ rainAll f ls.points, 0 ≤ p.water) ∧
    (∀ p ∈ (ls.pass).points, 0 ≤ p.water) := by
  constructor
  · intro p hp
    obtain ⟨i, hi, rfl⟩ := List.mem_iff_getElem.mp hp
    have hi' : i < ls.points.length := by
      simpa [rainAll] using hi
    have : (rainAll f ls.points)[i] = getP (rainAll f ls.points) i :=
      (List.getD_eq_getElem _ _ hi).symm
    rw [this, getP_rainAll f ls.points i hi']
    have h1 : 0 ≤ (getP ls.points i).water := water_nonneg_getP hw i
    have h2 : 0 ≤ f i := hf i
    simp only [Point.rain]
    linarith
  · exact pass_water_nonneg hnd hidx hε hw

/-- Witness for C4 at heights `[3, 1, 1]` with one unit of water everywhere and
a uniform rain distribution of one unit. -/
theorem water_nonneg_invariant_witness :
    (∀ p ∈ rainAll (fun _ => 1) [⟨3, 1⟩, ⟨1, 1⟩, ⟨1, 1⟩], 0 ≤ p.water) ∧
    (∀ p ∈ (Landscape.pass { points := [⟨3, 1⟩, ⟨1, 1⟩, ⟨1, 1⟩], points_idx := [0, 1, 2], results := [3, 1, 1], precision := 1 / 100 }).points, 0 ≤ p.water) := by
  have h := water_nonneg_invariant
    { points := [⟨3, 1⟩, ⟨1, 1⟩, ⟨1, 1⟩], points_idx := [0, 1, 2], results := [3, 1, 1], precision := 1 / 100 }
    (fun _ => 1) (by decide) (by decide) (by norm_num)
    (by intro p hp; fin_cases hp <;> norm_num) (fun i => by norm_num)
  exact h

/-- C6.  Rain contract: `rain` adds `rain_distr i` to point `i`'s water (for
every index, in natural order), stabilizes, and — whenever stabilization
finishes — returns `Ok` with the current heights in original point order when
`return_result` is set, and `Ok` with the empty sequence otherwise; it never
returns an error.  `rain_uniform` is exactly `rain` with the constant
distribution. -/
theorem rain_contract (fuel : ℕ) (ls : Landscape) (f : ℕ → ℚ) (c : ℚ) (b : Bool)
    (out : Landscape × Except String (List ℚ))
    (h : Landscape.rain fuel ls f b = some out) :
    (∃ ls2, Landscape.stabilize_water fuel { ls with points := rainAll f ls.points } = some ls2 ∧
      out.2 = Except.ok (if b then ls2.points.map Point.get_height else []) ∧
      out.1.points = ls2.points) ∧
    (∀ i, i < ls.points.length →
      getP (rainAll f ls.points) i = (getP ls.points i).rain (f i)) ∧
    Landscape.rain_uniform fuel ls c b = Landscape.rain fuel ls (fun _ => c) b := by
  refine ⟨?_, fun i hi => getP_rainAll f ls.points i hi, rfl⟩
  simp only [Landscape.rain] at h
  rcases hst : Landscape.stabilize_water fuel { ls with points := rainAll f ls.points }
    with _ | ls2
  · rw [hst] at h
    exact absurd h (by simp)
  · rw [hst] at h
    refine ⟨ls2, rfl, ?_⟩
    cases b
    · simp only [Bool.false_eq_true, if_false] at h ⊢
      injection h with h
      rw [← h]
      exact ⟨rfl, rfl⟩
    · simp only [if_pos rfl] at h ⊢
      injection h with h
      rw [← h]
      exact ⟨rfl, rfl⟩

/-- Witness for C6: raining zero on an already-stable two-point landscape
returns `Ok []` within one pass. -/
theorem rain_contract_witness :
    (∃ ls2, Landscape.stabilize_water 1 { ({ points := [⟨2, 0⟩, ⟨1, 0⟩], points_idx := [0, 1], results := [2, 1], precision := 1 / 100 } : Landscape) with points := rainAll (fun _ => (0 : ℚ)) ({ points := [⟨2, 0⟩, ⟨1, 0⟩], points_idx := [0, 1], results := [2, 1], precision := 1 / 100 } : Landscape).points } = some ls2 ∧
      ((({ points := [⟨2, 0⟩, ⟨1, 0⟩], points_idx := [0, 1], results := [2, 1], precision := 1 / 100 } : Landscape), (Except.ok [] : Except String (List ℚ)))).2 = Except.ok (if false then ls2.points.map Point.get_height else []) ∧
      ((({ points := [⟨2, 0⟩, ⟨1, 0⟩], points_idx := [0, 1], results := [2, 1], precision := 1 / 100 } : Landscape), (Except.ok [] : Except String (List ℚ)))).1.points = ls2.points) ∧
    (∀ i, i < ({ points := [⟨2, 0⟩, ⟨1, 0⟩], points_idx := [0, 1], results := [2, 1], precision := 1 / 100 } : Landscape).points.length →
      getP (rainAll (fun _ => (0 : ℚ)) ({ points := [⟨2, 0⟩, ⟨1, 0⟩], points_idx := [0, 1], results := [2, 1], precision := 1 / 100 } : Landscape).points) i =
        (getP ({ points := [⟨2, 0⟩, ⟨1, 0⟩], points_idx := [0, 1], results := [2, 1], precision := 1 / 100 } : Landscape).points i).rain 0) ∧
    Landscape.rain_uniform 1 { points := [⟨2, 0⟩, ⟨1, 0⟩], points_idx := [0, 1], results := [2, 1], precision := 1 / 100 } 0 false =
      Landscape.rain 1 { points := [⟨2, 0⟩, ⟨1, 0⟩], points_idx := [0, 1], results := [2, 1], precision := 1 / 100 } (fun _ => 0) false := by
  have hrain : Landscape.rain 1 { points := [⟨2, 0⟩, ⟨1, 0⟩], points_idx := [0, 1], results := [2, 1], precision := 1 / 100 } (fun _ => 0) false =
      some (({ points := [⟨2, 0⟩, ⟨1, 0⟩], points_idx := [0, 1], results := [2, 1], precision := 1 / 100 } : Landscape), (Except.ok [] : Except String (List ℚ))) := by
    norm_num [Landscape.rain, rainAll, Point.rain, List.mapIdx_cons, List.mapIdx_nil,
      Landscape.stabilize_water, Landscape.scanUpdates, Landscape.updatesFor,
      Landscape.sendWaterTo, Landscape.neighbors, Iter1D.toListFuel, Iter1D.next,
      getP, Point.get_height, List.filter, List.flatMap]
  exact rain_contract 1 _ (fun _ => 0) 0 false _ hrain

/-- C7.  Fixed priority order: the order built by `create` is a permutation of
`0..n-1` sorted by descending initial ground height (insertion sort makes the
tie-break deterministic), and no operation — a pass, the stabilization loop, or
(uniform) rain — ever changes the stored `points_idx`. -/
theorem fixed_priority_order (ph : List ℚ) :
    List.Perm (Landscape.create ph).points_idx (List.range ph.length) ∧
    List.Sorted (fun i j => ph.getD j 0 ≤ ph.getD i 0) (Landscape.create ph).points_idx ∧
    (∀ fuel (ls ls' : Landscape), Landscape.stabilize_water fuel ls = some ls' →
      ls'.points_idx = ls.points_idx) ∧
    (∀ ls : Landscape, (Landscape.pass ls).points_idx = ls.points_idx) ∧
    (∀ fuel (ls : Landscape) f b out, Landscape.rain fuel ls f b = some out →
      out.1.points_idx = ls.points_idx) ∧
    (∀ fuel (ls : Landscape) c b out, Landscape.rain_uniform fuel ls c b = some out →
      out.1.points_idx = ls.points_idx) := by
  refine ⟨List.perm_insertionSort _ _, ?_, ?_, fun ls => rfl, ?_, ?_⟩
  · exact @List.sorted_insertionSort ℕ _ _
      ⟨fun a b => le_total (ph.getD b 0) (ph.getD a 0)⟩
      ⟨fun a b c h1 h2 => le_trans h2 h1⟩ (List.range ph.length)
  · intro fuel ls ls' h
    exact (stabilize_water_fields fuel ls ls' h).1
  · intro fuel ls f b out h
    exact (rain_fields fuel ls f b out h).1
  · intro fuel ls c b out h
    exact (rain_fields fuel ls (fun _ => c) b out h).1

/-- Witness for C7: the sortedness and permutation at `[3, 1]`, and the
stabilization clause discharged at a concrete stable landscape. -/
theorem fixed_priority_order_witness :
    List.Perm (Landscape.create [3, 1]).points_idx (List.range 2) ∧
    ({ points := [⟨2, 0⟩, ⟨1, 0⟩], points_idx := [0, 1], results := [2, 1], precision := 1 / 100 } : Landscape).points_idx =
      ({ points := [⟨2, 0⟩, ⟨1, 0⟩], points_idx := [0, 1], results := [2, 1], precision := 1 / 100 } : Landscape).points_idx := by
  constructor
  · exact (fixed_priority_order [3, 1]).1
  · refine (fixed_priority_order [3, 1]).2.2.1 1 _ _ ?_
    norm_num [Landscape.stabilize_water, Landscape.scanUpdates, Landscape.updatesFor, getP]

/-- C8 counterexample: constructing from the empty height sequence does not
fail — `create` performs no validation and happily returns the zero-point
landscape (the claim asserts such construction must fail fast with a reported
input-validation error). -/
theorem create_empty_succeeds :
    Landscape.create [] =
      { points := [], points_idx := [], results := [], precision := 1 / 100 } := rfl

/-- C8 amended: `create` is total and performs no input validation at all — for
every height sequence (the empty one included) it returns a landscape holding
one dry point per height, the input echoed into `results`, the positive
compile-time tolerance (the tolerance is not a caller input, so a non-positive
tolerance cannot be supplied), and a priority order that is a permutation of
the index range.  (Non-finite heights do not exist in the exact-arithmetic
model; in the source a NaN height panics inside the sort comparator's
`unwrap` rather than producing an error value.) -/
theorem create_total_characterization (ph : List ℚ) :
    (Landscape.create ph).points = ph.map Point.with_height ∧
    (Landscape.create ph).points.length = ph.length ∧
    (Landscape.create ph).results = ph ∧
    (Landscape.create ph).precision = VISCOSITY_COEF ∧
    0 < (Landscape.create ph).precision ∧
    List.Perm (Landscape.create ph).points_idx (List.range ph.length) := by
  refine ⟨rfl, by simp [Landscape.create], rfl, rfl, ?_, List.perm_insertionSort _ _⟩
  norm_num [Landscape.create, VISCOSITY_COEF]

/-- C10.  Fixed tolerance: every landscape built by `create` stores, and the
`precision` accessor returns, exactly the compile-time constant
`VISCOSITY_COEF = 1/100` (the model of the source's `0.01`); no operation of
the public surface changes it. -/
theorem precision_fixed (ph : List ℚ) :
    (Landscape.create ph).precisionVal = VISCOSITY_COEF ∧
    VISCOSITY_COEF = 1 / 100 ∧
    (∀ fuel (ls ls' : Landscape), Landscape.stabilize_water fuel ls = some ls' →
      ls'.precisionVal = ls.precisionVal) ∧
    (∀ fuel (ls : Landscape) f b out, Landscape.rain fuel ls f b = some out →
      out.1.precisionVal = ls.precisionVal) ∧
    (∀ fuel (ls : Landscape) c b out, Landscape.rain_uniform fuel ls c b = some out →
      out.1.precisionVal = ls.precisionVal) := by
  refine ⟨rfl, rfl, ?_, ?_, ?_⟩
  · intro fuel ls ls' h
    exact (stabilize_water_fields fuel ls ls' h).2.1
  · intro fuel ls f b out h
    exact (rain_fields fuel ls f b out h).2
  · intro fuel ls c b out h
    exact (rain_fields fuel ls (fun _ => c) b out h).2

/-- Witness for C10 at `[5, 2, 7]`, with the stabilization clause discharged at
a concrete stable landscape. -/
theorem precision_fixed_witness :
    (Landscape.create [5, 2, 7]).precisionVal = 1 / 100 ∧
    ({ points := [⟨2, 0⟩, ⟨1, 0⟩], points_idx := [0, 1], results := [2, 1], precision := 1 / 100 } : Landscape).precisionVal =
      ({ points := [⟨2, 0⟩, ⟨1, 0⟩], points_idx := [0, 1], results := [2, 1], precision := 1 / 100 } : Landscape).precisionVal := by
  constructor
  · rw [(precision_fixed [5, 2, 7]).1, (precision_fixed [5, 2, 7]).2.1]
  · refine (precision_fixed [5, 2, 7]).2.2.1 1 _ _ ?_
    norm_num [Landscape.stabilize_water, Landscape.scanUpdates, Landscape.updatesFor, getP]

/-! ## Helper lemmas: the real potential function -/

theorem rpow_one_four_lt {a b : ℝ} (ha : 0 < a) (hb : 0 < b)
    (h : a ^ (7 : ℕ) < b ^ (5 : ℕ)) : a ^ (1.4 : ℝ) < b := by
  by_contra hc
  push_neg at hc
  have h5 : b ^ (5 : ℕ) ≤ (a ^ (1.4 : ℝ)) ^ (5 : ℕ) := pow_le_pow_left hb.le hc 5
  have h7 : (a ^ (1.4 : ℝ)) ^ (5 : ℕ) = a ^ (7 : ℕ) := by
    rw [← Real.rpow_natCast (a ^ (1.4 : ℝ)) 5, ← Real.rpow_mul ha.le]
    rw [show ((1.4 : ℝ) * (5 : ℕ)) = ((7 : ℕ) : ℝ) by norm_num, Real.rpow_natCast]
  rw [h7] at h5
  linarith

theorem lt_rpow_one_four {a b : ℝ} (ha : 0 < a) (hb : 0 ≤ b)
    (h : b ^ (5 : ℕ) < a ^ (7 : ℕ)) : b < a ^ (1.4 : ℝ) := by
  by_contra hc
  push_neg at hc
  have h5 : (a ^ (1.4 : ℝ)) ^ (5 : ℕ) ≤ b ^ (5 : ℕ) :=
    pow_le_pow_left (Real.rpow_pos_of_pos ha (1.4 : ℝ)).le hc 5
  have h7 : (a ^ (1.4 : ℝ)) ^ (5 : ℕ) = a ^ (7 : ℕ) := by
    rw [← Real.rpow_natCast (a ^ (1.4 : ℝ)) 5, ← Real.rpow_mul ha.le]
    rw [show ((1.4 : ℝ) * (5 : ℕ)) = ((7 : ℕ) : ℝ) by norm_num, Real.rpow_natCast]
  rw [h7] at h5
  linarith

theorem cos_one_four_pi_neg : Real.cos ((1.4 : ℝ) * Real.pi) < 0 := by
  have hπ := Real.pi_pos
  apply Real.cos_neg_of_pi_div_two_lt_of_lt
  · linarith
  · linarith

theorem neg_rpow_one_four (x : ℝ) (hx : 0 < x) :
    (-x) ^ (1.4 : ℝ) = x ^ (1.4 : ℝ) * Real.cos ((1.4 : ℝ) * Real.pi) := by
  rw [Real.rpow_def_of_neg (by linarith : -x < 0), Real.log_neg_eq_log,
    Real.rpow_def_of_pos hx]

/-- The key numeric fact behind the potential counterexample:
`2 * 5^1.4 < 1 + 9^1.4` over the reals. -/
theorem two_five_lt_one_nine :
    2 * (5 : ℝ) ^ (1.4 : ℝ) < 1 + (9 : ℝ) ^ (1.4 : ℝ) := by
  have h1 : (5 : ℝ) ^ (1.4 : ℝ) < 9.6 := by
    apply rpow_one_four_lt (by norm_num) (by norm_num)
    norm_num
  have h2 : (19.2 : ℝ) < (9 : ℝ) ^ (1.4 : ℝ) := by
    apply lt_rpow_one_four (by norm_num) (by norm_num)
    norm_num
  linarith

/-- Strict smoothing: moving `a` units from the higher of two nonnegative
values to the lower one, with `a` at most half the gap, strictly decreases
`z ↦ z^1.4` summed over the pair (strict convexity of the real power). -/
theorem rpow_smoothing {x y a : ℝ} (hx : 0 ≤ x) (hxy : x < y) (ha : 0 < a)
    (ha2 : a ≤ (y - x) / 2) :
    (x + a) ^ (1.4 : ℝ) + (y - a) ^ (1.4 : ℝ) < x ^ (1.4 : ℝ) + y ^ (1.4 : ℝ) := by
  have hsc : StrictConvexOn ℝ (Set.Ici 0) (fun z : ℝ => z ^ (1.4 : ℝ)) :=
    strictConvexOn_rpow (by norm_num)
  have hyx : 0 < y - x := by linarith
  set t : ℝ := a / (y - x) with ht_def
  have ht : 0 < t := div_pos ha hyx
  have ht1 : t ≤ 1 / 2 := by
    rw [ht_def, div_le_div_iff hyx (by norm_num : (0:ℝ) < 2)]
    linarith
  have h1t : 0 < 1 - t := by linarith
  have hsum : (1 - t) + t = 1 := by ring
  have hxm : x ∈ Set.Ici (0 : ℝ) := hx
  have hym : y ∈ Set.Ici (0 : ℝ) := le_trans hx hxy.le
  have hne : x ≠ y := ne_of_lt hxy
  have e1 : (1 - t) • x + t • y = x + a := by
    simp only [smul_eq_mul]
    field_simp [ht_def]
    ring
  have e2 : t • x + (1 - t) • y = y - a := by
    simp only [smul_eq_mul]
    field_simp [ht_def]
    ring
  have h1 := hsc.2 hxm hym hne h1t ht hsum
  have h2 := hsc.2 hxm hym hne ht h1t (by ring)
  rw [e1] at h1
  rw [e2] at h2
  simp only [smul_eq_mul] at h1 h2
  nlinarith

theorem height_nonneg_getP {ps : List Point} (hh : ∀ p ∈ ps, 0 ≤ p.get_height)
    (i : ℕ) : 0 ≤ (getP ps i).get_height := by
  by_cases hi : i < ps.length
  · rw [getP, List.getD_eq_getElem _ _ hi]
    exact hh _ (List.getElem_mem hi)
  · rw [getP, List.getD_eq_getElem?_getD, List.getElem?_eq_none (le_of_not_lt hi)]
    norm_num [Point.get_height]

theorem getP_applyOne_ne (ps : List Point) (wu : WaterUpdate)
    (hf : wu.from_idx < ps.length) (ht : wu.to_idx < ps.length) (i : ℕ)
    (h1 : wu.from_idx ≠ i) (h2 : wu.to_idx ≠ i) :
    getP (applyOne ps wu) i = getP ps i := by
  rw [getP_applyOne ps wu hf ht i, if_neg h1, if_neg h2]
  simp

/-- C9 counterexample: at the (spec-permitted) negative-height landscape with
grounds `[-5, -9]` and waters `[4, 0]`, the pass applies one flow-update of
amount `4`, and the potential `Φ = Σ height^1.4` (real power) strictly
*increases* across the pass: the claim `Φ_new ≤ Φ_old` is false.  (Under IEEE
`f64`, `powf` of these negative heights is NaN, so the source's diagnostic
cannot even evaluate the comparison there.) -/
theorem potential_counterexample :
    ({ points := [⟨-5, 4⟩, ⟨-9, 0⟩], points_idx := [0, 1], results := [-5, -9], precision := 1 / 100 } : Landscape).scanUpdates ≠ [] ∧
    ({ points := [⟨-5, 4⟩, ⟨-9, 0⟩], points_idx := [0, 1], results := [-5, -9], precision := 1 / 100 } : Landscape).calc_state <
      (Landscape.pass { points := [⟨-5, 4⟩, ⟨-9, 0⟩], points_idx := [0, 1], results := [-5, -9], precision := 1 / 100 }).calc_state := by
  have hscan : ({ points := [⟨-5, 4⟩, ⟨-9, 0⟩], points_idx := [0, 1], results := [-5, -9], precision := 1 / 100 } : Landscape).scanUpdates = [⟨0, 1, 4⟩] := by
    norm_num [Landscape.scanUpdates, Landscape.updatesFor, Landscape.sendWaterTo,
      Landscape.neighbors, Iter1D.toListFuel, Iter1D.next, getP, Point.get_height,
      List.filter, List.flatMap]
  constructor
  · rw [hscan]
    simp
  · have hpass : (Landscape.pass { points := [⟨-5, 4⟩, ⟨-9, 0⟩], points_idx := [0, 1], results := [-5, -9], precision := 1 / 100 }).points = [⟨-5, 0⟩, ⟨-9, 4⟩] := by
      show applyUpdates _ ({ points := [⟨-5, 4⟩, ⟨-9, 0⟩], points_idx := [0, 1], results := [-5, -9], precision := 1 / 100 } : Landscape).scanUpdates = _
      rw [hscan]
      norm_num [applyUpdates, applyOne, getP]
    unfold Landscape.calc_state
    rw [hpass]
    simp only [List.map_cons, List.map_nil, List.sum_cons, List.sum_nil, add_zero,
      Point.get_height]
    push_cast
    norm_num
    have c1 := neg_rpow_one_four 1 one_pos
    have c5 := neg_rpow_one_four 5 (by norm_num)
    have c9 := neg_rpow_one_four 9 (by norm_num)
    rw [show ((7 : ℝ) / 5) = (1.4 : ℝ) by norm_num]
    rw [show ((-1 : ℝ)) = -(1 : ℝ) by norm_num, show ((-9 : ℝ)) = -(9 : ℝ) by norm_num,
      show ((-5 : ℝ)) = -(5 : ℝ) by norm_num, c1, c5, c9, Real.one_rpow]
    have hc := cos_one_four_pi_neg
    have hnum := two_five_lt_one_nine
    have key : (1 + (9 : ℝ) ^ (1.4 : ℝ) - 2 * (5 : ℝ) ^ (1.4 : ℝ)) *
        Real.cos ((1.4 : ℝ) * Real.pi) < 0 :=
      mul_neg_of_pos_of_neg (by linarith) hc
    nlinarith [key]


/-! ## Helper lemmas: real-valued flow sums for the potential argument -/

theorem list_sum_map_add {α : Type*} (l : List α) (f g : α → ℝ) :
    (l.map (fun a => f a + g a)).sum = (l.map f).sum + (l.map g).sum := by
  induction l with
  | nil => simp
  | cons a l ih =>
    simp only [List.map_cons, List.sum_cons, ih]
    ring

theorem list_sum_le_sum {α : Type*} (l : List α) (f g : α → ℝ)
    (h : ∀ a ∈ l, f a ≤ g a) : (l.map f).sum ≤ (l.map g).sum :=
  List.sum_le_sum h

theorem sum_inFlowR_over (B : Finset ℕ) (l : List WaterUpdate) :
    ∑ i ∈ B, ((inFlow l i : ℚ) : ℝ) =
      (l.map (fun wu => if wu.to_idx ∈ B then ((wu.water : ℚ) : ℝ) else 0)).sum := by
  induction l with
  | nil => simp [inFlow]
  | cons wu l ih =>
    have h : ∀ i, inFlow (wu :: l) i = (if wu.to_idx = i then wu.water else 0) + inFlow l i := by
      intro i
      simp [inFlow]
    simp only [h, Rat.cast_add]
    rw [Finset.sum_add_distrib, ih, List.map_cons, List.sum_cons]
    congr 1
    rw [Finset.sum_congr rfl
      (fun i _ => apply_ite (fun q : ℚ => (q : ℝ)) (wu.to_idx = i) wu.water 0)]
    simp only [Rat.cast_zero]
    exact Finset.sum_ite_eq B wu.to_idx fun _ => ((wu.water : ℚ) : ℝ)

theorem sum_outFlowR_over (B : Finset ℕ) (l : List WaterUpdate) :
    ∑ i ∈ B, ((outFlow l i : ℚ) : ℝ) =
      (l.map (fun wu => if wu.from_idx ∈ B then ((wu.water : ℚ) : ℝ) else 0)).sum := by
  induction l with
  | nil => simp [outFlow]
  | cons wu l ih =>
    have h : ∀ i, outFlow (wu :: l) i = (if wu.from_idx = i then wu.water else 0) + outFlow l i := by
      intro i
      simp [outFlow]
    simp only [h, Rat.cast_add]
    rw [Finset.sum_add_distrib, ih, List.map_cons, List.sum_cons]
    congr 1
    rw [Finset.sum_congr rfl
      (fun i _ => apply_ite (fun q : ℚ => (q : ℝ)) (wu.from_idx = i) wu.water 0)]
    simp only [Rat.cast_zero]
    exact Finset.sum_ite_eq B wu.from_idx fun _ => ((wu.water : ℚ) : ℝ)

theorem sum_mul_inFlowR (g : ℕ → ℝ) (n : ℕ) (l : List WaterUpdate)
    (hl : ∀ wu ∈ l, wu.to_idx < n) :
    ∑ i ∈ Finset.range n, g i * ((inFlow l i : ℚ) : ℝ) =
      (l.map (fun wu => ((wu.water : ℚ) : ℝ) * g wu.to_idx)).sum := by
  induction l with
  | nil => simp [inFlow]
  | cons wu l ih =>
    have h : ∀ i, inFlow (wu :: l) i = (if wu.to_idx = i then wu.water else 0) + inFlow l i := by
      intro i
      simp [inFlow]
    have hmem : wu.to_idx ∈ Finset.range n :=
      Finset.mem_range.mpr (hl wu (List.mem_cons_self wu l))
    simp only [h, Rat.cast_add, mul_add]
    rw [Finset.sum_add_distrib, ih (fun v hv => hl v (List.mem_cons_of_mem wu hv)),
      List.map_cons, List.sum_cons]
    congr 1
    have hc : ∀ i ∈ Finset.range n,
        g i * (((if wu.to_idx = i then wu.water else 0 : ℚ)) : ℝ) =
          (if wu.to_idx = i then ((wu.water : ℚ) : ℝ) * g i else 0) := by
      intro i _
      by_cases hi : wu.to_idx = i
      · simp [hi, mul_comm]
      · simp [hi]
    rw [Finset.sum_congr rfl hc,
      Finset.sum_ite_eq (Finset.range n) wu.to_idx fun i => ((wu.water : ℚ) : ℝ) * g i]
    simp [hmem]

theorem sum_mul_outFlowR (g : ℕ → ℝ) (n : ℕ) (l : List WaterUpdate)
    (hl : ∀ wu ∈ l, wu.from_idx < n) :
    ∑ i ∈ Finset.range n, g i * ((outFlow l i : ℚ) : ℝ) =
      (l.map (fun wu => ((wu.water : ℚ) : ℝ) * g wu.from_idx)).sum := by
  induction l with
  | nil => simp [outFlow]
  | cons wu l ih =>
    have h : ∀ i, outFlow (wu :: l) i = (if wu.from_idx = i then wu.water else 0) + outFlow l i := by
      intro i
      simp [outFlow]
    have hmem : wu.from_idx ∈ Finset.range n :=
      Finset.mem_range.mpr (hl wu (List.mem_cons_self wu l))
    simp only [h, Rat.cast_add, mul_add]
    rw [Finset.sum_add_distrib, ih (fun v hv => hl v (List.mem_cons_of_mem wu hv)),
      List.map_cons, List.sum_cons]
    congr 1
    have hc : ∀ i ∈ Finset.range n,
        g i * (((if wu.from_idx = i then wu.water else 0 : ℚ)) : ℝ) =
          (if wu.from_idx = i then ((wu.water : ℚ) : ℝ) * g i else 0) := by
      intro i _
      by_cases hi : wu.from_idx = i
      · simp [hi, mul_comm]
      · simp [hi]
    rw [Finset.sum_congr rfl hc,
      Finset.sum_ite_eq (Finset.range n) wu.from_idx fun i => ((wu.water : ℚ) : ℝ) * g i]
    simp [hmem]

theorem sum_from_group (h : ℕ → ℝ) (n : ℕ) (l : List WaterUpdate)
    (hl : ∀ wu ∈ l, wu.from_idx < n) :
    (l.map (fun wu => h wu.from_idx)).sum =
      ∑ u ∈ Finset.range n,
        (((l.filter (fun wu => wu.from_idx = u)).length : ℕ) : ℝ) * h u := by
  induction l with
  | nil => simp
  | cons wu l ih =>
    have hmem : wu.from_idx ∈ Finset.range n :=
      Finset.mem_range.mpr (hl wu (List.mem_cons_self wu l))
    have hflt : ∀ u, ((wu :: l).filter (fun v => v.from_idx = u)).length =
        (if wu.from_idx = u then 1 else 0) + (l.filter (fun v => v.from_idx = u)).length := by
      intro u
      by_cases hu : wu.from_idx = u
      · simp [List.filter_cons, hu]
        try omega
      · simp [List.filter_cons, hu]
    simp only [hflt]
    push_cast
    simp only [add_mul]
    rw [Finset.sum_add_distrib, List.map_cons, List.sum_cons,
      ih (fun v hv => hl v (List.mem_cons_of_mem wu hv))]
    congr 1
    have hc : ∀ u ∈ Finset.range n,
        ((if wu.from_idx = u then (1 : ℝ) else 0)) * h u =
          (if wu.from_idx = u then h u else 0) := by
      intro u _
      by_cases hu : wu.from_idx = u <;> simp [hu]
    rw [Finset.sum_congr rfl hc, Finset.sum_ite_eq (Finset.range n) wu.from_idx h]
    simp [hmem]

theorem sum_to_group (h : ℕ → ℝ) (n : ℕ) (l : List WaterUpdate)
    (hl : ∀ wu ∈ l, wu.to_idx < n) :
    (l.map (fun wu => h wu.to_idx)).sum =
      ∑ u ∈ Finset.range n,
        (((l.filter (fun wu => wu.to_idx = u)).length : ℕ) : ℝ) * h u := by
  induction l with
  | nil => simp
  | cons wu l ih =>
    have hmem : wu.to_idx ∈ Finset.range n :=
      Finset.mem_range.mpr (hl wu (List.mem_cons_self wu l))
    have hflt : ∀ u, ((wu :: l).filter (fun v => v.to_idx = u)).length =
        (if wu.to_idx = u then 1 else 0) + (l.filter (fun v => v.to_idx = u)).length := by
      intro u
      by_cases hu : wu.to_idx = u
      · simp [List.filter_cons, hu]
        try omega
      · simp [List.filter_cons, hu]
    simp only [hflt]
    push_cast
    simp only [add_mul]
    rw [Finset.sum_add_distrib, List.map_cons, List.sum_cons,
      ih (fun v hv => hl v (List.mem_cons_of_mem wu hv))]
    congr 1
    have hc : ∀ u ∈ Finset.range n,
        ((if wu.to_idx = u then (1 : ℝ) else 0)) * h u =
          (if wu.to_idx = u then h u else 0) := by
      intro u _
      by_cases hu : wu.to_idx = u <;> simp [hu]
    rw [Finset.sum_congr rfl hc, Finset.sum_ite_eq (Finset.range n) wu.to_idx h]
    simp [hmem]

/-! ## Helper lemmas: counting updates per source, destination and edge -/

theorem length_filter_le_add {α : Type*} (l : List α) (r p q : α → Bool)
    (h : ∀ a ∈ l, r a = true → p a = true ∨ q a = true) :
    (l.filter r).length ≤ (l.filter p).length + (l.filter q).length := by
  induction l with
  | nil => simp
  | cons a l ih =>
    have ih' := ih (fun b hb => h b (List.mem_cons_of_mem a hb))
    have ha := h a (List.mem_cons_self a l)
    simp only [List.filter_cons]
    split_ifs <;> (try simp only [List.length_cons]) <;> first | omega | simp_all

theorem list_sum_ite_count (l : List ℕ) (v : ℕ) :
    (l.map (fun a => if a = v then (1 : ℕ) else 0)).sum = l.count v := by
  induction l with
  | nil => simp
  | cons a l ih =>
    simp only [List.map_cons, List.sum_cons, ih, List.count_cons]
    by_cases ha : a = v <;> simp [ha] <;> omega

theorem list_sum_single_le (l : List ℕ) (c : ℕ → ℕ) (u k : ℕ) (hnd : l.Nodup)
    (h0 : ∀ v ∈ l, v ≠ u → c v = 0) (hu : c u ≤ k) : (l.map c).sum ≤ k := by
  induction l with
  | nil => simp
  | cons a l ih =>
    obtain ⟨hal, hl⟩ := List.nodup_cons.mp hnd
    simp only [List.map_cons, List.sum_cons]
    by_cases ha : a = u
    · subst ha
      have hz : (l.map c).sum = 0 := by
        apply List.sum_eq_zero
        intro x hx
        obtain ⟨v, hv, hxeq⟩ := List.mem_map.mp hx
        rw [← hxeq]
        exact h0 v (List.mem_cons_of_mem a hv) (fun hvu => hal (hvu ▸ hv))
      omega
    · rw [h0 a (List.mem_cons_self a l) ha]
      have := ih hl (fun v hv => h0 v (List.mem_cons_of_mem a hv))
      omega

theorem list_sum_double_le (l : List ℕ) (c : ℕ → ℕ) (u1 u2 : ℕ) (hnd : l.Nodup)
    (h0 : ∀ v ∈ l, v ≠ u1 → v ≠ u2 → c v = 0) (h1 : ∀ v, c v ≤ 1) :
    (l.map c).sum ≤ 2 := by
  induction l with
  | nil => simp
  | cons a l ih =>
    obtain ⟨hal, hl⟩ := List.nodup_cons.mp hnd
    simp only [List.map_cons, List.sum_cons]
    by_cases ha1 : a = u1
    · subst ha1
      have hrest : (l.map c).sum ≤ 1 := by
        apply list_sum_single_le l c u2 1 hl
        · intro v hv hvu2
          exact h0 v (List.mem_cons_of_mem a hv) (fun hvu1 => hal (hvu1 ▸ hv)) hvu2
        · exact h1 u2
      have := h1 a
      omega
    · by_cases ha2 : a = u2
      · subst ha2
        have hrest : (l.map c).sum ≤ 1 := by
          apply list_sum_single_le l c u1 1 hl
          · intro v hv hvu1
            exact h0 v (List.mem_cons_of_mem a hv) hvu1 (fun hvu2 => hal (hvu2 ▸ hv))
          · exact h1 u1
        have := h1 a
        omega
      · rw [h0 a (List.mem_cons_self a l) ha1 ha2]
        have := ih hl (fun v hv => h0 v (List.mem_cons_of_mem a hv))
        omega

theorem list_sum_le_length (l : List ℕ) (hl : ∀ x ∈ l, x ≤ 1) : l.sum ≤ l.length := by
  induction l with
  | nil => simp
  | cons a l ih =>
    have := hl a (List.mem_cons_self a l)
    have := ih (fun x hx => hl x (List.mem_cons_of_mem a hx))
    simp only [List.sum_cons, List.length_cons]
    omega

theorem specNeighbors_nodup (i n : ℕ) : (specNeighbors i n).Nodup := by
  unfold specNeighbors
  split_ifs <;> simp <;> omega

theorem specNeighbors_length_le_two (i n : ℕ) : (specNeighbors i n).length ≤ 2 := by
  unfold specNeighbors
  split_ifs <;> simp

theorem mem_specNeighbors_adjacent {i n j : ℕ} (hj : j ∈ specNeighbors i n) :
    j = i + 1 ∨ j + 1 = i := by
  unfold specNeighbors at hj
  rcases List.mem_append.mp hj with hj | hj
  · by_cases h0 : 0 < i
    · simp [h0] at hj
      omega
    · have h0' : i = 0 := Nat.eq_zero_of_not_pos h0
      subst h0'
      by_cases h1 : 1 < n
      · simp [h1] at hj
        omega
      · simp [h1] at hj
  · by_cases hc : 0 < i ∧ i < n - 1
    · simp [hc] at hj
      omega
    · simp [hc] at hj

theorem sendWaterTo_nodup (ls : Landscape) (pj : ℕ) : (ls.sendWaterTo pj).Nodup := by
  unfold Landscape.sendWaterTo
  apply List.Nodup.filter
  rw [neighbors_eq_spec]
  exact specNeighbors_nodup pj ls.points.length

theorem sendWaterTo_length_le_two (ls : Landscape) (pj : ℕ) :
    (ls.sendWaterTo pj).length ≤ 2 := by
  unfold Landscape.sendWaterTo
  calc (List.filter _ (ls.neighbors pj)).length ≤ (ls.neighbors pj).length :=
        List.length_filter_le _ _
    _ ≤ 2 := by
        rw [neighbors_eq_spec]
        exact specNeighbors_length_le_two pj ls.points.length

theorem length_filter_mono {α : Type*} (l : List α) (p q : α → Bool)
    (h : ∀ a ∈ l, p a = true → q a = true) :
    (l.filter p).length ≤ (l.filter q).length := by
  induction l with
  | nil => simp
  | cons a l ih =>
    have ih' := ih (fun b hb => h b (List.mem_cons_of_mem a hb))
    have ha := h a (List.mem_cons_self a l)
    simp only [List.filter_cons]
    split_ifs <;> (try simp only [List.length_cons]) <;> first | omega | simp_all

theorem updatesFor_filter_to_length (ls : Landscape) (pj v : ℕ) :
    ((ls.updatesFor pj).filter (fun wu => wu.to_idx = v)).length ≤ 1 := by
  unfold Landscape.updatesFor
  by_cases hpw : (getP ls.points pj).water ≤ ls.precision
  · simp [hpw]
  · rw [if_neg hpw]
    by_cases hsw : (ls.sendWaterTo pj).isEmpty = true
    · simp [hsw]
    · rw [if_neg hsw]
      rw [List.filter_flatMap, List.length_flatMap]
      calc ((ls.sendWaterTo pj).map _).sum
          ≤ ((ls.sendWaterTo pj).map (fun ni => if ni = v then (1 : ℕ) else 0)).sum := by
            apply List.sum_le_sum
            intro ni _
            simp only [Function.comp_apply]
            by_cases hd : (getP ls.points pj).get_height -
                (getP ls.points ni).get_height > ls.precision
            · simp only [hd, if_true]
              by_cases hv : ni = v
              · subst hv
                simp [List.filter_cons]
              · simp [List.filter_cons, hv]
            · simp only [hd, if_false]
              simp
        _ = (ls.sendWaterTo pj).count v := list_sum_ite_count _ v
        _ ≤ 1 := List.nodup_iff_count_le_one.mp (sendWaterTo_nodup ls pj) v

theorem updatesFor_filter_from_ne (ls : Landscape) {pj u : ℕ} (h : pj ≠ u) :
    (ls.updatesFor pj).filter (fun wu => wu.from_idx = u) = [] := by
  rw [List.filter_eq_nil_iff]
  intro wu hwu
  have := (mem_updatesFor hwu).1
  simp [this, h]

theorem updatesFor_length_le_two (ls : Landscape) (pj : ℕ) :
    (ls.updatesFor pj).length ≤ 2 := by
  unfold Landscape.updatesFor
  by_cases hpw : (getP ls.points pj).water ≤ ls.precision
  · simp [hpw]
  · rw [if_neg hpw]
    by_cases hsw : (ls.sendWaterTo pj).isEmpty = true
    · simp [hsw]
    · rw [if_neg hsw]
      rw [List.length_flatMap]
      calc ((ls.sendWaterTo pj).map _).sum
          ≤ ((ls.sendWaterTo pj).map _).length := by
            apply list_sum_le_length
            intro x hx
            obtain ⟨ni, _, hxeq⟩ := List.mem_map.mp hx
            rw [← hxeq]
            simp only [Function.comp_apply]
            split_ifs <;> simp
        _ = (ls.sendWaterTo pj).length := List.length_map _ _
        _ ≤ 2 := sendWaterTo_length_le_two ls pj

theorem scan_countFrom_le_two {ls : Landscape} (hnd : ls.points_idx.Nodup) (u : ℕ) :
    (ls.scanUpdates.filter (fun wu => wu.from_idx = u)).length ≤ 2 := by
  unfold Landscape.scanUpdates
  rw [List.filter_flatMap, List.length_flatMap]
  apply list_sum_single_le ls.points_idx _ u 2 hnd
  · intro pj _ hpju
    simp only [Function.comp_apply]
    rw [updatesFor_filter_from_ne ls hpju]
    rfl
  · simp only [Function.comp_apply]
    calc ((ls.updatesFor u).filter (fun wu => decide (wu.from_idx = u))).length
        ≤ (ls.updatesFor u).length := List.length_filter_le _ _
      _ ≤ 2 := updatesFor_length_le_two ls u

theorem scan_countTo_le_two {ls : Landscape} (hnd : ls.points_idx.Nodup) (v : ℕ) :
    (ls.scanUpdates.filter (fun wu => wu.to_idx = v)).length ≤ 2 := by
  unfold Landscape.scanUpdates
  rw [List.filter_flatMap, List.length_flatMap]
  apply list_sum_double_le ls.points_idx _ (v + 1) (v - 1) hnd
  · intro pj _ h1 h2
    simp only [Function.comp_apply]
    have hnil : (ls.updatesFor pj).filter (fun wu => wu.to_idx = v) = [] := by
      rw [List.filter_eq_nil_iff]
      intro wu hwu
      simp only [decide_eq_true_eq]
      intro htv
      obtain ⟨-, -, hto, -, -⟩ := mem_updatesFor hwu
      have hnb := (mem_sendWaterTo hto).1
      rw [neighbors_eq_spec] at hnb
      rw [htv] at hnb
      rcases mem_specNeighbors_adjacent hnb with hadj | hadj <;> omega
    rw [hnil]
    rfl
  · intro pj
    simp only [Function.comp_apply]
    exact updatesFor_filter_to_length ls pj v

theorem scan_countFromTo_le_one {ls : Landscape} (hnd : ls.points_idx.Nodup) (u v : ℕ) :
    (ls.scanUpdates.filter (fun wu => wu.from_idx = u ∧ wu.to_idx = v)).length ≤ 1 := by
  unfold Landscape.scanUpdates
  rw [List.filter_flatMap, List.length_flatMap]
  apply list_sum_single_le ls.points_idx _ u 1 hnd
  · intro pj _ hpju
    simp only [Function.comp_apply]
    have hnil : (ls.updatesFor pj).filter
        (fun wu => decide (wu.from_idx = u ∧ wu.to_idx = v)) = [] := by
      rw [List.filter_eq_nil_iff]
      intro wu hwu
      have := (mem_updatesFor hwu).1
      simp [this, hpju]
    rw [hnil]
    rfl
  · simp only [Function.comp_apply]
    calc ((ls.updatesFor u).filter (fun wu => decide (wu.from_idx = u ∧ wu.to_idx = v))).length
        ≤ ((ls.updatesFor u).filter (fun wu => wu.to_idx = v)).length := by
          apply length_filter_mono
          intro wu _ hp
          simp only [decide_eq_true_eq] at hp ⊢
          exact hp.2
      _ ≤ 1 := updatesFor_filter_to_length ls u v

theorem scan_adjacent {ls : Landscape} {wu : WaterUpdate} (h : wu ∈ ls.scanUpdates) :
    wu.to_idx = wu.from_idx + 1 ∨ wu.to_idx + 1 = wu.from_idx := by
  obtain ⟨-, h2⟩ := mem_scanUpdates h
  obtain ⟨-, -, hto, -, -⟩ := mem_updatesFor h2
  have hnb := (mem_sendWaterTo hto).1
  rw [neighbors_eq_spec] at hnb
  exact mem_specNeighbors_adjacent hnb

theorem scan_downhill {ls : Landscape} {wu : WaterUpdate} (h : wu ∈ ls.scanUpdates) :
    ls.precision <
      (getP ls.points wu.from_idx).get_height - (getP ls.points wu.to_idx).get_height := by
  obtain ⟨-, h2⟩ := mem_scanUpdates h
  obtain ⟨-, -, -, hd, -⟩ := mem_updatesFor h2
  exact hd

theorem scan_cap {ls : Landscape} {wu : WaterUpdate} (h : wu ∈ ls.scanUpdates) :
    2 * wu.water ≤
      (getP ls.points wu.from_idx).get_height - (getP ls.points wu.to_idx).get_height := by
  obtain ⟨-, h2⟩ := mem_scanUpdates h
  obtain ⟨-, -, -, -, hw⟩ := mem_updatesFor h2
  rw [hw]
  split_ifs with hlt
  · linarith
  · linarith

theorem scan_countEdge_le_one {ls : Landscape} (hnd : ls.points_idx.Nodup)
    (hε : 0 ≤ ls.precision) (u : ℕ) :
    (ls.scanUpdates.filter (fun wu =>
      (wu.from_idx = u ∧ wu.to_idx = u + 1) ∨ (wu.from_idx = u + 1 ∧ wu.to_idx = u))).length
      ≤ 1 := by
  have hsplit := length_filter_le_add ls.scanUpdates
    (fun wu => (wu.from_idx = u ∧ wu.to_idx = u + 1) ∨ (wu.from_idx = u + 1 ∧ wu.to_idx = u))
    (fun wu => wu.from_idx = u ∧ wu.to_idx = u + 1)
    (fun wu => wu.from_idx = u + 1 ∧ wu.to_idx = u)
    (by
      intro wu _ hr
      simp only [decide_eq_true_eq] at hr ⊢
      exact hr)
  by_cases h1 : (ls.scanUpdates.filter
      (fun wu => wu.from_idx = u ∧ wu.to_idx = u + 1)).length = 0
  · have h2 := scan_countFromTo_le_one hnd (u + 1) u
    omega
  · have hmem1 : ∃ wu ∈ ls.scanUpdates, wu.from_idx = u ∧ wu.to_idx = u + 1 := by
      have hpos : 0 < (ls.scanUpdates.filter
          (fun wu => wu.from_idx = u ∧ wu.to_idx = u + 1)).length := Nat.pos_of_ne_zero h1
      obtain ⟨wu, hwu⟩ := List.exists_mem_of_length_pos hpos
      have := List.mem_filter.mp hwu
      refine ⟨wu, this.1, ?_⟩
      simpa using this.2
    obtain ⟨wu1, hwu1s, hf1, ht1⟩ := hmem1
    have hd1 := scan_downhill hwu1s
    rw [hf1, ht1] at hd1
    have h2nil : ls.scanUpdates.filter
        (fun wu => wu.from_idx = u + 1 ∧ wu.to_idx = u) = [] := by
      rw [List.filter_eq_nil_iff]
      intro wu hwu
      simp only [decide_eq_true_eq]
      rintro ⟨hf2, ht2⟩
      have hd2 := scan_downhill hwu
      rw [hf2, ht2] at hd2
      linarith
    have h3 := scan_countFromTo_le_one hnd u (u + 1)
    rw [h2nil] at hsplit
    simp only [List.length_nil] at hsplit
    omega

/-! ## Helper lemmas: threshold dominance of a capped batch -/

theorem max_self_add_max_neg (z : ℝ) : max z 0 = z + max (-z) 0 := by
  rcases le_total z 0 with hz | hz
  · rw [max_eq_right hz, max_eq_left (by linarith : (0 : ℝ) ≤ -z)]
    ring
  · rw [max_eq_left hz, max_eq_right (by linarith : -z ≤ (0 : ℝ))]
    ring

theorem hockey_stick (n : ℕ) (x y : ℕ → ℝ) (l : List WaterUpdate)
    (hy : ∀ i ∈ Finset.range n,
      y i = x i + ((inFlow l i : ℚ) : ℝ) - ((outFlow l i : ℚ) : ℝ))
    (hbf : ∀ wu ∈ l, wu.from_idx < n) (hbt : ∀ wu ∈ l, wu.to_idx < n)
    (ha : ∀ wu ∈ l, 0 ≤ ((wu.water : ℚ) : ℝ))
    (hcap : ∀ wu ∈ l, 2 * ((wu.water : ℚ) : ℝ) ≤ x wu.from_idx - x wu.to_idx)
    (hcf : ∀ u, (l.filter (fun wu => wu.from_idx = u)).length ≤ 2)
    (hct : ∀ v, (l.filter (fun wu => wu.to_idx = v)).length ≤ 2)
    (t : ℝ) :
    ∑ i ∈ Finset.range n, max (y i - t) 0 ≤ ∑ i ∈ Finset.range n, max (x i - t) 0 := by
  classical
  have hA : ∑ i ∈ Finset.range n, max (y i - t) 0 =
      ∑ i ∈ (Finset.range n).filter (fun i => t < y i), (y i - t) := by
    rw [Finset.sum_filter]
    apply Finset.sum_congr rfl
    intro i _
    by_cases hti : t < y i
    · rw [if_pos hti, max_eq_left (by linarith)]
    · push_neg at hti
      rw [if_neg (not_lt.mpr hti), max_eq_right (by linarith)]
  have hBsplit : ∑ i ∈ Finset.range n, max (x i - t) 0 =
      ∑ i ∈ (Finset.range n).filter (fun i => t < y i), max (x i - t) 0 +
      ∑ i ∈ (Finset.range n).filter (fun i => ¬ t < y i), max (x i - t) 0 :=
    (Finset.sum_filter_add_sum_filter_not (Finset.range n) (fun i => t < y i) _).symm
  have hBx : ∑ i ∈ (Finset.range n).filter (fun i => t < y i), max (x i - t) 0 =
      ∑ i ∈ (Finset.range n).filter (fun i => t < y i), (x i - t) +
      ∑ i ∈ (Finset.range n).filter (fun i => t < y i), max (t - x i) 0 := by
    rw [← Finset.sum_add_distrib]
    apply Finset.sum_congr rfl
    intro i _
    rw [max_self_add_max_neg (x i - t), neg_sub]
  have he1 : ∑ i ∈ (Finset.range n).filter (fun i => t < y i), (y i - t) =
      ∑ i ∈ (Finset.range n).filter (fun i => t < y i), (y i - x i) +
      ∑ i ∈ (Finset.range n).filter (fun i => t < y i), (x i - t) := by
    rw [← Finset.sum_add_distrib]
    apply Finset.sum_congr rfl
    intro i _
    ring
  have hyx : ∑ i ∈ (Finset.range n).filter (fun i => t < y i), (y i - x i) =
      (l.map (fun wu => if wu.to_idx ∈ (Finset.range n).filter (fun i => t < y i)
          then ((wu.water : ℚ) : ℝ) else 0)).sum -
      (l.map (fun wu => if wu.from_idx ∈ (Finset.range n).filter (fun i => t < y i)
          then ((wu.water : ℚ) : ℝ) else 0)).sum := by
    rw [← sum_inFlowR_over, ← sum_outFlowR_over, ← Finset.sum_sub_distrib]
    apply Finset.sum_congr rfl
    intro i hi
    have hir : i ∈ Finset.range n := (Finset.mem_filter.mp hi).1
    rw [hy i hir]
    ring
  have hper : ∀ wu ∈ l,
      (if wu.to_idx ∈ (Finset.range n).filter (fun i => t < y i)
          then ((wu.water : ℚ) : ℝ) else 0) ≤
      (fun wu => (if wu.from_idx ∈ (Finset.range n).filter (fun i => t < y i)
          then ((wu.water : ℚ) : ℝ) else 0) +
        ((if wu.from_idx ∈ (Finset.range n).filter (fun i => t < y i)
            then 0 else max (x wu.from_idx - t) 0 / 2) +
         (if wu.to_idx ∈ (Finset.range n).filter (fun i => t < y i)
            then max (t - x wu.to_idx) 0 / 2 else 0))) wu := by
    intro wu hwu
    simp only
    have hawu := ha wu hwu
    by_cases hto : wu.to_idx ∈ (Finset.range n).filter (fun i => t < y i)
    · by_cases hfrom : wu.from_idx ∈ (Finset.range n).filter (fun i => t < y i)
      · rw [if_pos hto, if_pos hfrom, if_pos hfrom, if_pos hto]
        have h1 : (0 : ℝ) ≤ max (t - x wu.to_idx) 0 / 2 := by
          have := le_max_right (t - x wu.to_idx) (0 : ℝ)
          linarith
        linarith
      · rw [if_pos hto, if_neg hfrom, if_neg hfrom, if_pos hto]
        have h1 : x wu.from_idx - t ≤ max (x wu.from_idx - t) 0 := le_max_left _ _
        have h2 : t - x wu.to_idx ≤ max (t - x wu.to_idx) 0 := le_max_left _ _
        have h3 := hcap wu hwu
        linarith
    · rw [if_neg hto, if_neg hto]
      have h1 : (0 : ℝ) ≤ max (x wu.from_idx - t) 0 := le_max_right _ _
      have h2 : (0 : ℝ) ≤ max (t - x wu.to_idx) 0 := le_max_right _ _
      by_cases hfrom : wu.from_idx ∈ (Finset.range n).filter (fun i => t < y i)
      · rw [if_pos hfrom, if_pos hfrom]
        linarith
      · rw [if_neg hfrom, if_neg hfrom]
        linarith
  have hsum1 :
      (l.map (fun wu => if wu.to_idx ∈ (Finset.range n).filter (fun i => t < y i)
          then ((wu.water : ℚ) : ℝ) else 0)).sum ≤
      (l.map (fun wu => if wu.from_idx ∈ (Finset.range n).filter (fun i => t < y i)
          then ((wu.water : ℚ) : ℝ) else 0)).sum +
      ((l.map (fun wu => if wu.from_idx ∈ (Finset.range n).filter (fun i => t < y i)
          then 0 else max (x wu.from_idx - t) 0 / 2)).sum +
       (l.map (fun wu => if wu.to_idx ∈ (Finset.range n).filter (fun i => t < y i)
          then max (t - x wu.to_idx) 0 / 2 else 0)).sum) := by
    have hstep := list_sum_le_sum l _ _ hper
    have hadd1 := list_sum_map_add l
      (fun wu => if wu.from_idx ∈ (Finset.range n).filter (fun i => t < y i)
          then ((wu.water : ℚ) : ℝ) else 0)
      (fun wu => (if wu.from_idx ∈ (Finset.range n).filter (fun i => t < y i)
          then 0 else max (x wu.from_idx - t) 0 / 2) +
        (if wu.to_idx ∈ (Finset.range n).filter (fun i => t < y i)
          then max (t - x wu.to_idx) 0 / 2 else 0))
    have hadd2 := list_sum_map_add l
      (fun wu => if wu.from_idx ∈ (Finset.range n).filter (fun i => t < y i)
          then 0 else max (x wu.from_idx - t) 0 / 2)
      (fun wu => if wu.to_idx ∈ (Finset.range n).filter (fun i => t < y i)
          then max (t - x wu.to_idx) 0 / 2 else 0)
    rw [hadd1, hadd2] at hstep
    exact hstep
  have hcFsum :
      (l.map (fun wu => if wu.from_idx ∈ (Finset.range n).filter (fun i => t < y i)
          then 0 else max (x wu.from_idx - t) 0 / 2)).sum ≤
      ∑ i ∈ (Finset.range n).filter (fun i => ¬ t < y i), max (x i - t) 0 := by
    rw [sum_from_group (fun u => if u ∈ (Finset.range n).filter (fun i => t < y i)
        then 0 else max (x u - t) 0 / 2) n l hbf]
    calc ∑ u ∈ Finset.range n,
          (((l.filter (fun wu => wu.from_idx = u)).length : ℕ) : ℝ) *
            (if u ∈ (Finset.range n).filter (fun i => t < y i)
              then 0 else max (x u - t) 0 / 2)
        ≤ ∑ u ∈ Finset.range n,
            2 * (if u ∈ (Finset.range n).filter (fun i => t < y i)
              then 0 else max (x u - t) 0 / 2) := by
          apply Finset.sum_le_sum
          intro u _
          apply mul_le_mul_of_nonneg_right
          · exact_mod_cast hcf u
          · have h1 : (0 : ℝ) ≤ max (x u - t) 0 := le_max_right _ _
            split_ifs
            · exact le_rfl
            · linarith
      _ = ∑ u ∈ (Finset.range n).filter (fun i => ¬ t < y i), max (x u - t) 0 := by
          rw [Finset.sum_filter]
          apply Finset.sum_congr rfl
          intro u hu
          by_cases hyu : t < y u
          · have hmem : u ∈ Finset.filter (fun i => t < y i) (Finset.range n) :=
              Finset.mem_filter.mpr ⟨hu, hyu⟩
            rw [if_pos hmem, if_neg (not_not_intro hyu)]
            ring
          · have hnmem : u ∉ Finset.filter (fun i => t < y i) (Finset.range n) :=
              fun hc => hyu (Finset.mem_filter.mp hc).2
            rw [if_neg hnmem, if_pos hyu]
            ring
  have hcTsum :
      (l.map (fun wu => if wu.to_idx ∈ (Finset.range n).filter (fun i => t < y i)
          then max (t - x wu.to_idx) 0 / 2 else 0)).sum ≤
      ∑ i ∈ (Finset.range n).filter (fun i => t < y i), max (t - x i) 0 := by
    rw [sum_to_group (fun u => if u ∈ (Finset.range n).filter (fun i => t < y i)
        then max (t - x u) 0 / 2 else 0) n l hbt]
    calc ∑ u ∈ Finset.range n,
          (((l.filter (fun wu => wu.to_idx = u)).length : ℕ) : ℝ) *
            (if u ∈ (Finset.range n).filter (fun i => t < y i)
              then max (t - x u) 0 / 2 else 0)
        ≤ ∑ u ∈ Finset.range n,
            2 * (if u ∈ (Finset.range n).filter (fun i => t < y i)
              then max (t - x u) 0 / 2 else 0) := by
          apply Finset.sum_le_sum
          intro u _
          apply mul_le_mul_of_nonneg_right
          · exact_mod_cast hct u
          · have h1 : (0 : ℝ) ≤ max (t - x u) 0 := le_max_right _ _
            split_ifs
            · linarith
            · exact le_rfl
      _ = ∑ u ∈ (Finset.range n).filter (fun i => t < y i), max (t - x u) 0 := by
          rw [Finset.sum_filter]
          apply Finset.sum_congr rfl
          intro u hu
          by_cases hyu : t < y u
          · have hmem : u ∈ Finset.filter (fun i => t < y i) (Finset.range n) :=
              Finset.mem_filter.mpr ⟨hu, hyu⟩
            rw [if_pos hmem, if_pos hyu]
            ring
          · have hnmem : u ∉ Finset.filter (fun i => t < y i) (Finset.range n) :=
              fun hc => hyu (Finset.mem_filter.mp hc).2
            rw [if_neg hnmem, if_neg hyu]
            ring
  rw [hA, hBsplit, hBx, he1, hyx]
  linarith

/-! ## Helper lemmas: quadratic strict decrease of a capped adjacent batch -/

theorem list_sum_map_sub {α : Type*} (l : List α) (f g : α → ℝ) :
    (l.map (fun a => f a - g a)).sum = (l.map f).sum - (l.map g).sum := by
  induction l with
  | nil => simp
  | cons a l ih =>
    simp only [List.map_cons, List.sum_cons, ih]
    ring

theorem list_sum_map_two {α : Type*} (l : List α) (f : α → ℝ) :
    (l.map (fun a => 2 * f a)).sum = 2 * (l.map f).sum := by
  induction l with
  | nil => simp
  | cons a l ih =>
    simp only [List.map_cons, List.sum_cons, ih]
    ring

theorem inFlowR_filter (l : List WaterUpdate) (i : ℕ) :
    ((inFlow l i : ℚ) : ℝ) =
      ((l.filter (fun wu => wu.to_idx = i)).map (fun wu => ((wu.water : ℚ) : ℝ))).sum := by
  induction l with
  | nil => simp [inFlow]
  | cons wu l ih =>
    have h : inFlow (wu :: l) i = (if wu.to_idx = i then wu.water else 0) + inFlow l i := by
      simp [inFlow]
    rw [h, Rat.cast_add, ih, List.filter_cons]
    by_cases hti : wu.to_idx = i
    · simp [hti]
    · simp [hti]

theorem outFlowR_filter (l : List WaterUpdate) (i : ℕ) :
    ((outFlow l i : ℚ) : ℝ) =
      ((l.filter (fun wu => wu.from_idx = i)).map (fun wu => ((wu.water : ℚ) : ℝ))).sum := by
  induction l with
  | nil => simp [outFlow]
  | cons wu l ih =>
    have h : outFlow (wu :: l) i = (if wu.from_idx = i then wu.water else 0) + outFlow l i := by
      simp [outFlow]
    rw [h, Rat.cast_add, ih, List.filter_cons]
    by_cases hti : wu.from_idx = i
    · simp [hti]
    · simp [hti]

theorem incident_sum_split (l : List WaterUpdate) (i : ℕ) (f : WaterUpdate → ℝ)
    (hne : ∀ wu ∈ l, wu.from_idx ≠ wu.to_idx) :
    ((l.filter (fun wu => wu.from_idx = i ∨ wu.to_idx = i)).map f).sum =
      ((l.filter (fun wu => wu.from_idx = i)).map f).sum +
      ((l.filter (fun wu => wu.to_idx = i)).map f).sum := by
  induction l with
  | nil => simp
  | cons wu l ih =>
    have ih' := ih (fun v hv => hne v (List.mem_cons_of_mem wu hv))
    have hwu := hne wu (List.mem_cons_self wu l)
    simp only [List.filter_cons]
    simp only [Bool.decide_or] at ih'
    by_cases hf : wu.from_idx = i
    · have ht : ¬ wu.to_idx = i := fun hti => hwu (hf.trans hti.symm)
      simp [hf, ht, ih']
      try ring
    · by_cases ht : wu.to_idx = i
      · simp [hf, ht, ih']
        try ring
      · simp [hf, ht, ih']

theorem sq_list_sum_le_two_mul (L : List ℝ) (hlen : L.length ≤ 2) :
    (L.sum) ^ 2 ≤ 2 * (L.map (fun e => e ^ 2)).sum := by
  rcases L with _ | ⟨a, _ | ⟨b, _ | ⟨c, L⟩⟩⟩
  · simp
  · simp only [List.sum_cons, List.sum_nil, List.map_cons, List.map_nil]
    nlinarith [sq_nonneg a]
  · simp only [List.sum_cons, List.sum_nil, List.map_cons, List.map_nil]
    nlinarith [sq_nonneg (a - b)]
  · simp only [List.length_cons] at hlen
    omega

theorem incident_filter_map_sum (l : List WaterUpdate) (i : ℕ) (f : WaterUpdate → ℝ) :
    ((l.filter (fun wu => wu.from_idx = i ∨ wu.to_idx = i)).map f).sum =
      (l.map (fun wu => if wu.from_idx = i ∨ wu.to_idx = i then f wu else 0)).sum := by
  induction l with
  | nil => simp
  | cons wu l ih =>
    simp only [List.filter_cons, List.map_cons, List.sum_cons]
    simp only [Bool.decide_or] at ih
    by_cases h : wu.from_idx = i ∨ wu.to_idx = i
    · simp [h, ih]
    · simp [h, ih]

theorem sum_range_ite_pair (n : ℕ) (l : List WaterUpdate) (f : WaterUpdate → ℝ)
    (hbf : ∀ wu ∈ l, wu.from_idx < n) (hbt : ∀ wu ∈ l, wu.to_idx < n)
    (hne : ∀ wu ∈ l, wu.from_idx ≠ wu.to_idx) :
    ∑ i ∈ Finset.range n,
      (l.map (fun wu => if wu.from_idx = i ∨ wu.to_idx = i then f wu else 0)).sum =
      2 * (l.map f).sum := by
  induction l with
  | nil => simp
  | cons wu l ih =>
    have ih' := ih (fun v hv => hbf v (List.mem_cons_of_mem wu hv))
      (fun v hv => hbt v (List.mem_cons_of_mem wu hv))
      (fun v hv => hne v (List.mem_cons_of_mem wu hv))
    have hmemf : wu.from_idx ∈ Finset.range n :=
      Finset.mem_range.mpr (hbf wu (List.mem_cons_self wu l))
    have hmemt : wu.to_idx ∈ Finset.range n :=
      Finset.mem_range.mpr (hbt wu (List.mem_cons_self wu l))
    simp only [List.map_cons, List.sum_cons]
    rw [Finset.sum_add_distrib]
    have hsplit : ∀ i ∈ Finset.range n,
        (if wu.from_idx = i ∨ wu.to_idx = i then f wu else 0) =
        (if wu.from_idx = i then f wu else 0) + (if wu.to_idx = i then f wu else 0) := by
      intro i _
      have hwne := hne wu (List.mem_cons_self wu l)
      by_cases hf : wu.from_idx = i
      · have ht : ¬ wu.to_idx = i := fun hti => hwne (hf.trans hti.symm)
        rw [if_pos (Or.inl hf), if_pos hf, if_neg ht]
        ring
      · by_cases ht : wu.to_idx = i
        · rw [if_pos (Or.inr ht), if_neg hf, if_pos ht]
          ring
        · rw [if_neg (fun hc => hc.elim hf ht), if_neg hf, if_neg ht]
          ring
    rw [Finset.sum_congr rfl hsplit, Finset.sum_add_distrib,
      Finset.sum_ite_eq (Finset.range n) wu.from_idx (fun _ => f wu),
      Finset.sum_ite_eq (Finset.range n) wu.to_idx (fun _ => f wu),
      if_pos hmemf, if_pos hmemt, ih']
    ring

theorem quadratic_strict (n : ℕ) (x y : ℕ → ℝ) (l : List WaterUpdate)
    (hl : l ≠ [])
    (hy : ∀ i ∈ Finset.range n,
      y i = x i + ((inFlow l i : ℚ) : ℝ) - ((outFlow l i : ℚ) : ℝ))
    (hbf : ∀ wu ∈ l, wu.from_idx < n) (hbt : ∀ wu ∈ l, wu.to_idx < n)
    (hapos : ∀ wu ∈ l, 0 < ((wu.water : ℚ) : ℝ))
    (hcap : ∀ wu ∈ l, 2 * ((wu.water : ℚ) : ℝ) ≤ x wu.from_idx - x wu.to_idx)
    (hadj : ∀ wu ∈ l, wu.to_idx = wu.from_idx + 1 ∨ wu.to_idx + 1 = wu.from_idx)
    (hedge : ∀ u, (l.filter (fun wu =>
      (wu.from_idx = u ∧ wu.to_idx = u + 1) ∨
        (wu.from_idx = u + 1 ∧ wu.to_idx = u))).length ≤ 1) :
    ∑ i ∈ Finset.range n, (y i) ^ 2 < ∑ i ∈ Finset.range n, (x i) ^ 2 := by
  have hne : ∀ wu ∈ l, wu.from_idx ≠ wu.to_idx := by
    intro wu hwu
    rcases hadj wu hwu with h | h <;> omega
  have hdecomp : ∑ i ∈ Finset.range n, (y i) ^ 2 =
      ∑ i ∈ Finset.range n, (x i) ^ 2 +
      (2 * ∑ i ∈ Finset.range n,
          x i * (((inFlow l i : ℚ) : ℝ) - ((outFlow l i : ℚ) : ℝ)) +
       ∑ i ∈ Finset.range n,
          (((inFlow l i : ℚ) : ℝ) - ((outFlow l i : ℚ) : ℝ)) ^ 2) := by
    rw [Finset.mul_sum, ← Finset.sum_add_distrib, ← Finset.sum_add_distrib]
    apply Finset.sum_congr rfl
    intro i hi
    rw [hy i hi]
    ring
  have hcross : ∑ i ∈ Finset.range n,
      x i * (((inFlow l i : ℚ) : ℝ) - ((outFlow l i : ℚ) : ℝ)) ≤
      -(2 * (l.map (fun wu => ((wu.water : ℚ) : ℝ) ^ 2)).sum) := by
    have h1 : ∑ i ∈ Finset.range n,
        x i * (((inFlow l i : ℚ) : ℝ) - ((outFlow l i : ℚ) : ℝ)) =
        (l.map (fun wu => ((wu.water : ℚ) : ℝ) * x wu.to_idx)).sum -
        (l.map (fun wu => ((wu.water : ℚ) : ℝ) * x wu.from_idx)).sum := by
      have hc : ∀ i ∈ Finset.range n,
          x i * (((inFlow l i : ℚ) : ℝ) - ((outFlow l i : ℚ) : ℝ)) =
          x i * ((inFlow l i : ℚ) : ℝ) - x i * ((outFlow l i : ℚ) : ℝ) := by
        intro i _
        ring
      rw [Finset.sum_congr rfl hc, Finset.sum_sub_distrib,
        sum_mul_inFlowR x n l hbt, sum_mul_outFlowR x n l hbf]
    have h2 : (l.map (fun wu => ((wu.water : ℚ) : ℝ) *
          (x wu.from_idx - x wu.to_idx))).sum =
        (l.map (fun wu => ((wu.water : ℚ) : ℝ) * x wu.from_idx)).sum -
        (l.map (fun wu => ((wu.water : ℚ) : ℝ) * x wu.to_idx)).sum := by
      rw [← list_sum_map_sub l
        (fun wu => ((wu.water : ℚ) : ℝ) * x wu.from_idx)
        (fun wu => ((wu.water : ℚ) : ℝ) * x wu.to_idx)]
      congr 1
      apply List.map_congr_left
      intro wu _
      ring
    have h3 : (l.map (fun wu => 2 * (((wu.water : ℚ) : ℝ) ^ 2))).sum ≤
        (l.map (fun wu => ((wu.water : ℚ) : ℝ) *
          (x wu.from_idx - x wu.to_idx))).sum := by
      apply list_sum_le_sum
      intro wu hwu
      have ha := (hapos wu hwu).le
      have hc := mul_le_mul_of_nonneg_left (hcap wu hwu) ha
      nlinarith
    have h4 : (l.map (fun wu => 2 * (((wu.water : ℚ) : ℝ) ^ 2))).sum =
        2 * (l.map (fun wu => ((wu.water : ℚ) : ℝ) ^ 2)).sum :=
      list_sum_map_two _ _
    linarith
  have hnetS : ∀ i : ℕ,
      (((inFlow l i : ℚ) : ℝ) - ((outFlow l i : ℚ) : ℝ)) ^ 2 ≤
      (((l.filter (fun wu => wu.from_idx = i ∨ wu.to_idx = i)).map
        (fun wu => ((wu.water : ℚ) : ℝ))).sum) ^ 2 := by
    intro i
    have hin := inFlowR_filter l i
    have hout := outFlowR_filter l i
    have hin0 : 0 ≤ ((inFlow l i : ℚ) : ℝ) := by
      rw [hin]
      apply List.sum_nonneg
      intro z hz
      obtain ⟨wu, hwu, hzeq⟩ := List.mem_map.mp hz
      rw [← hzeq]
      exact (hapos wu (List.mem_of_mem_filter hwu)).le
    have hout0 : 0 ≤ ((outFlow l i : ℚ) : ℝ) := by
      rw [hout]
      apply List.sum_nonneg
      intro z hz
      obtain ⟨wu, hwu, hzeq⟩ := List.mem_map.mp hz
      rw [← hzeq]
      exact (hapos wu (List.mem_of_mem_filter hwu)).le
    have hS : ((l.filter (fun wu => wu.from_idx = i ∨ wu.to_idx = i)).map
        (fun wu => ((wu.water : ℚ) : ℝ))).sum =
        ((outFlow l i : ℚ) : ℝ) + ((inFlow l i : ℚ) : ℝ) := by
      rw [incident_sum_split l i (fun wu => ((wu.water : ℚ) : ℝ)) hne, ← hout, ← hin]
    apply sq_le_sq'
    · rw [hS]
      linarith
    · rw [hS]
      linarith
  have hlen2 : ∀ i : ℕ,
      (l.filter (fun wu => wu.from_idx = i ∨ wu.to_idx = i)).length ≤ 2 := by
    intro i
    have himp : ∀ wu ∈ l,
        (decide (wu.from_idx = i ∨ wu.to_idx = i)) = true →
        (decide ((wu.from_idx = i ∧ wu.to_idx = i + 1) ∨
          (wu.from_idx = i + 1 ∧ wu.to_idx = i))) = true ∨
        (decide ((wu.from_idx = i - 1 ∧ wu.to_idx = i - 1 + 1) ∨
          (wu.from_idx = i - 1 + 1 ∧ wu.to_idx = i - 1))) = true := by
      intro wu hwu hr
      simp only [decide_eq_true_eq] at hr ⊢
      rcases hadj wu hwu with h | h <;> omega
    have hsplit := length_filter_le_add l _ _ _ himp
    have he1 := hedge i
    have he2 := hedge (i - 1)
    omega
  have hS2 : ∀ i : ℕ,
      (((l.filter (fun wu => wu.from_idx = i ∨ wu.to_idx = i)).map
        (fun wu => ((wu.water : ℚ) : ℝ))).sum) ^ 2 ≤
      2 * ((l.filter (fun wu => wu.from_idx = i ∨ wu.to_idx = i)).map
        (fun wu => ((wu.water : ℚ) : ℝ) ^ 2)).sum := by
    intro i
    have h5 := sq_list_sum_le_two_mul
      ((l.filter (fun wu => wu.from_idx = i ∨ wu.to_idx = i)).map
        (fun wu => ((wu.water : ℚ) : ℝ)))
      (by rw [List.length_map]; exact hlen2 i)
    rw [List.map_map] at h5
    exact h5
  obtain ⟨wu0, hwu0l⟩ := List.exists_mem_of_ne_nil l hl
  have hTne : ((l.map (fun wu => wu.from_idx)).toFinset ∪
      (l.map (fun wu => wu.to_idx)).toFinset).Nonempty := by
    refine ⟨wu0.from_idx, ?_⟩
    simp only [Finset.mem_union, List.mem_toFinset, List.mem_map]
    exact Or.inl ⟨wu0, hwu0l, rfl⟩
  obtain ⟨vstar, hvstar_mem, hvstar_min⟩ :
      ∃ v ∈ (l.map (fun wu => wu.from_idx)).toFinset ∪
        (l.map (fun wu => wu.to_idx)).toFinset,
        ∀ u ∈ (l.map (fun wu => wu.from_idx)).toFinset ∪
          (l.map (fun wu => wu.to_idx)).toFinset, v ≤ u :=
    ⟨_, Finset.min'_mem _ hTne, fun u hu => Finset.min'_le _ u hu⟩
  have hvstar : ∃ wu ∈ l, wu.from_idx = vstar ∨ wu.to_idx = vstar := by
    simp only [Finset.mem_union, List.mem_toFinset, List.mem_map] at hvstar_mem
    rcases hvstar_mem with ⟨wu, hwu, heq⟩ | ⟨wu, hwu, heq⟩
    · exact ⟨wu, hwu, Or.inl heq⟩
    · exact ⟨wu, hwu, Or.inr heq⟩
  obtain ⟨wu1, hwu1l, hwu1v⟩ := hvstar
  have hfromT : ∀ wu ∈ l, vstar ≤ wu.from_idx := by
    intro wu hwu
    apply hvstar_min
    simp only [Finset.mem_union, List.mem_toFinset, List.mem_map]
    exact Or.inl ⟨wu, hwu, rfl⟩
  have htoT : ∀ wu ∈ l, vstar ≤ wu.to_idx := by
    intro wu hwu
    apply hvstar_min
    simp only [Finset.mem_union, List.mem_toFinset, List.mem_map]
    exact Or.inr ⟨wu, hwu, rfl⟩
  have himpv : ∀ wu ∈ l,
      decide (wu.from_idx = vstar ∨ wu.to_idx = vstar) = true →
      decide ((wu.from_idx = vstar ∧ wu.to_idx = vstar + 1) ∨
        (wu.from_idx = vstar + 1 ∧ wu.to_idx = vstar)) = true := by
    intro wu hwu hr
    simp only [decide_eq_true_eq] at hr ⊢
    have h1 := hfromT wu hwu
    have h2 := htoT wu hwu
    rcases hadj wu hwu with h | h <;> omega
  have hlenv_le : (l.filter
      (fun wu => wu.from_idx = vstar ∨ wu.to_idx = vstar)).length ≤ 1 :=
    le_trans (length_filter_mono l _ _ himpv) (hedge vstar)
  have hmemv : wu1 ∈ l.filter (fun wu => wu.from_idx = vstar ∨ wu.to_idx = vstar) := by
    rw [List.mem_filter]
    exact ⟨hwu1l, by simpa using hwu1v⟩
  have hlen1 : (l.filter
      (fun wu => wu.from_idx = vstar ∨ wu.to_idx = vstar)).length = 1 := by
    have := List.length_pos.mpr (List.ne_nil_of_mem hmemv)
    omega
  obtain ⟨w0, hw0⟩ := List.length_eq_one.mp hlen1
  have hw0l : w0 ∈ l := by
    have hmem : w0 ∈ l.filter (fun wu => wu.from_idx = vstar ∨ wu.to_idx = vstar) := by
      rw [hw0]
      exact List.mem_singleton_self w0
    exact List.mem_of_mem_filter hmem
  have hw0pos := hapos w0 hw0l
  have hQv : ((l.filter (fun wu => wu.from_idx = vstar ∨ wu.to_idx = vstar)).map
      (fun wu => ((wu.water : ℚ) : ℝ) ^ 2)).sum = ((w0.water : ℚ) : ℝ) ^ 2 := by
    rw [hw0]
    simp
  have hSv : ((l.filter (fun wu => wu.from_idx = vstar ∨ wu.to_idx = vstar)).map
      (fun wu => ((wu.water : ℚ) : ℝ))).sum = ((w0.water : ℚ) : ℝ) := by
    rw [hw0]
    simp
  have hvn : vstar ∈ Finset.range n := by
    rcases hwu1v with h | h
    · exact Finset.mem_range.mpr (h ▸ hbf wu1 hwu1l)
    · exact Finset.mem_range.mpr (h ▸ hbt wu1 hwu1l)
  have hvertsum : ∑ i ∈ Finset.range n,
      (((inFlow l i : ℚ) : ℝ) - ((outFlow l i : ℚ) : ℝ)) ^ 2 ≤
      2 * (∑ i ∈ Finset.range n,
        ((l.filter (fun wu => wu.from_idx = i ∨ wu.to_idx = i)).map
          (fun wu => ((wu.water : ℚ) : ℝ) ^ 2)).sum) - ((w0.water : ℚ) : ℝ) ^ 2 := by
    have hle : ∀ i ∈ Finset.range n,
        (((inFlow l i : ℚ) : ℝ) - ((outFlow l i : ℚ) : ℝ)) ^ 2 ≤
        2 * ((l.filter (fun wu => wu.from_idx = i ∨ wu.to_idx = i)).map
          (fun wu => ((wu.water : ℚ) : ℝ) ^ 2)).sum -
        (if i = vstar then ((w0.water : ℚ) : ℝ) ^ 2 else 0) := by
      intro i _
      by_cases hiv : i = vstar
      · subst hiv
        rw [if_pos rfl]
        have h6 := hnetS i
        rw [hSv] at h6
        rw [hQv]
        linarith
      · rw [if_neg hiv, sub_zero]
        exact le_trans (hnetS i) (hS2 i)
    calc ∑ i ∈ Finset.range n,
        (((inFlow l i : ℚ) : ℝ) - ((outFlow l i : ℚ) : ℝ)) ^ 2
        ≤ ∑ i ∈ Finset.range n,
          (2 * ((l.filter (fun wu => wu.from_idx = i ∨ wu.to_idx = i)).map
            (fun wu => ((wu.water : ℚ) : ℝ) ^ 2)).sum -
          (if i = vstar then ((w0.water : ℚ) : ℝ) ^ 2 else 0)) :=
        Finset.sum_le_sum hle
      _ = 2 * (∑ i ∈ Finset.range n,
          ((l.filter (fun wu => wu.from_idx = i ∨ wu.to_idx = i)).map
            (fun wu => ((wu.water : ℚ) : ℝ) ^ 2)).sum) - ((w0.water : ℚ) : ℝ) ^ 2 := by
        rw [Finset.sum_sub_distrib, ← Finset.mul_sum,
          Finset.sum_ite_eq' (Finset.range n) vstar
            (fun _ => ((w0.water : ℚ) : ℝ) ^ 2), if_pos hvn]
  have hQsum : ∑ i ∈ Finset.range n,
      ((l.filter (fun wu => wu.from_idx = i ∨ wu.to_idx = i)).map
        (fun wu => ((wu.water : ℚ) : ℝ) ^ 2)).sum =
      2 * (l.map (fun wu => ((wu.water : ℚ) : ℝ) ^ 2)).sum := by
    have hc : ∀ i ∈ Finset.range n,
        ((l.filter (fun wu => wu.from_idx = i ∨ wu.to_idx = i)).map
          (fun wu => ((wu.water : ℚ) : ℝ) ^ 2)).sum =
        (l.map (fun wu => if wu.from_idx = i ∨ wu.to_idx = i
          then ((wu.water : ℚ) : ℝ) ^ 2 else 0)).sum := by
      intro i _
      exact incident_filter_map_sum l i _
    rw [Finset.sum_congr rfl hc]
    exact sum_range_ite_pair n l _ hbf hbt hne
  have hw0sq : 0 < ((w0.water : ℚ) : ℝ) ^ 2 := pow_pos hw0pos 2
  rw [hQsum] at hvertsum
  rw [hdecomp]
  linarith

/-! ## Helper lemmas: the potential as an integral of threshold cuts -/

theorem integrable_weight (a b : ℝ) :
    IntervalIntegrable (fun t : ℝ => t ^ (-(3:ℝ)/5)) MeasureTheory.volume a b :=
  intervalIntegral.intervalIntegrable_rpow' (by norm_num)

theorem continuous_max_cut (z : ℝ) : Continuous (fun t : ℝ => max (z - t) 0) :=
  Continuous.max (continuous_const.sub continuous_id) continuous_const

theorem integrable_max_mul_weight (z a b : ℝ) :
    IntervalIntegrable (fun t : ℝ => max (z - t) 0 * t ^ (-(3:ℝ)/5))
      MeasureTheory.volume a b :=
  (integrable_weight a b).continuousOn_mul (continuous_max_cut z).continuousOn

theorem integral_weight_eq (z : ℝ) (hz : 0 ≤ z) :
    ∫ t in (0:ℝ)..z, (z - t) * t ^ (-(3:ℝ)/5) = (25/14) * z ^ ((7:ℝ)/5) := by
  rcases eq_or_lt_of_le hz with hz0 | hz0
  · rw [← hz0, intervalIntegral.integral_same,
      Real.zero_rpow (by norm_num : ((7:ℝ)/5) ≠ 0)]
    ring
  · have hcongr : Set.EqOn (fun t : ℝ => (z - t) * t ^ (-(3:ℝ)/5))
        (fun t : ℝ => z * t ^ (-(3:ℝ)/5) - t ^ ((2:ℝ)/5)) (Set.uIcc 0 z) := by
      intro t ht
      rw [Set.uIcc_of_le hz] at ht
      obtain ⟨ht0, htz⟩ := ht
      simp only
      rcases eq_or_lt_of_le ht0 with ht0' | ht0'
      · rw [← ht0', Real.zero_rpow (by norm_num : (-(3:ℝ)/5) ≠ 0),
          Real.zero_rpow (by norm_num : ((2:ℝ)/5) ≠ 0)]
        ring
      · have hsplit : t ^ ((2:ℝ)/5) = t * t ^ (-(3:ℝ)/5) := by
          rw [show ((2:ℝ)/5) = 1 + (-(3:ℝ)/5) by norm_num, Real.rpow_add ht0',
            Real.rpow_one]
        rw [hsplit]
        ring
    rw [intervalIntegral.integral_congr hcongr,
      intervalIntegral.integral_sub
        ((integrable_weight 0 z).const_mul z)
        (intervalIntegral.intervalIntegrable_rpow' (by norm_num)),
      intervalIntegral.integral_const_mul,
      integral_rpow (Or.inl (by norm_num : (-1:ℝ) < -(3:ℝ)/5)),
      integral_rpow (Or.inl (by norm_num : (-1:ℝ) < (2:ℝ)/5)),
      Real.zero_rpow (by norm_num : (-(3:ℝ)/5 + 1) ≠ 0),
      Real.zero_rpow (by norm_num : ((2:ℝ)/5 + 1) ≠ 0), sub_zero, sub_zero,
      show (-(3:ℝ)/5 + 1) = (2:ℝ)/5 by norm_num,
      show ((2:ℝ)/5 + 1) = (7:ℝ)/5 by norm_num,
      show ((7:ℝ)/5) = 1 + (2:ℝ)/5 by norm_num, Real.rpow_add hz0, Real.rpow_one]
    ring

theorem integral_max_weight (z M : ℝ) (hz : 0 ≤ z) (hzM : z ≤ M) :
    ∫ t in (0:ℝ)..M, max (z - t) 0 * t ^ (-(3:ℝ)/5) = (25/14) * z ^ ((7:ℝ)/5) := by
  have hsplit := intervalIntegral.integral_add_adjacent_intervals
    (integrable_max_mul_weight z 0 z) (integrable_max_mul_weight z z M)
  rw [← hsplit]
  have h1 : ∫ t in (0:ℝ)..z, max (z - t) 0 * t ^ (-(3:ℝ)/5) =
      ∫ t in (0:ℝ)..z, (z - t) * t ^ (-(3:ℝ)/5) := by
    apply intervalIntegral.integral_congr
    intro t ht
    rw [Set.uIcc_of_le hz] at ht
    simp only
    rw [max_eq_left (by linarith [ht.2] : (0:ℝ) ≤ z - t)]
  have h2 : ∫ t in z..M, max (z - t) 0 * t ^ (-(3:ℝ)/5) = 0 := by
    have hc : ∫ t in z..M, max (z - t) 0 * t ^ (-(3:ℝ)/5) =
        ∫ t in z..M, (0:ℝ) := by
      apply intervalIntegral.integral_congr
      intro t ht
      rw [Set.uIcc_of_le hzM] at ht
      simp only
      rw [max_eq_right (by linarith [ht.1] : z - t ≤ 0), zero_mul]
    rw [hc]
    simp
  rw [h1, h2, integral_weight_eq z hz, add_zero]

theorem integral_max_eq (z M : ℝ) (hz : 0 ≤ z) (hzM : z ≤ M) :
    ∫ t in (0:ℝ)..M, max (z - t) 0 = z ^ 2 / 2 := by
  have hsplit := intervalIntegral.integral_add_adjacent_intervals
    ((continuous_max_cut z).intervalIntegrable 0 z :
      IntervalIntegrable _ MeasureTheory.volume 0 z)
    ((continuous_max_cut z).intervalIntegrable z M :
      IntervalIntegrable _ MeasureTheory.volume z M)
  rw [← hsplit]
  have h1 : ∫ t in (0:ℝ)..z, max (z - t) 0 = ∫ t in (0:ℝ)..z, (z - t) := by
    apply intervalIntegral.integral_congr
    intro t ht
    rw [Set.uIcc_of_le hz] at ht
    simp only
    rw [max_eq_left (by linarith [ht.2] : (0:ℝ) ≤ z - t)]
  have h2 : ∫ t in z..M, max (z - t) 0 = 0 := by
    have hc : ∫ t in z..M, max (z - t) 0 = ∫ t in z..M, (0:ℝ) := by
      apply intervalIntegral.integral_congr
      intro t ht
      rw [Set.uIcc_of_le hzM] at ht
      simp only
      rw [max_eq_right (by linarith [ht.1] : z - t ≤ 0)]
    rw [hc]
    simp
  have h3 := intervalIntegral.integral_sub
    (continuous_const.intervalIntegrable 0 z :
      IntervalIntegrable (fun _ : ℝ => z) MeasureTheory.volume 0 z)
    (continuous_id.intervalIntegrable 0 z :
      IntervalIntegrable (fun t : ℝ => t) MeasureTheory.volume 0 z)
  simp only [id_eq] at h3
  rw [h1, h2, add_zero, h3, intervalIntegral.integral_const, integral_id]
  simp only [smul_eq_mul, sub_zero]
  ring

theorem rpow_as_integral (z M : ℝ) (hz : 0 ≤ z) (hzM : z ≤ M) :
    z ^ (1.4:ℝ) = (14/25) * ∫ t in (0:ℝ)..M, max (z - t) 0 * t ^ (-(3:ℝ)/5) := by
  rw [integral_max_weight z M hz hzM, show (1.4:ℝ) = (7:ℝ)/5 by norm_num]
  ring

theorem sum_rpow_repr (n : ℕ) (f : ℕ → ℝ) (M : ℝ)
    (hf : ∀ i ∈ Finset.range n, 0 ≤ f i ∧ f i ≤ M) :
    ∑ i ∈ Finset.range n, (f i) ^ (1.4:ℝ) =
      (14/25) * ∫ t in (0:ℝ)..M,
        (∑ i ∈ Finset.range n, max (f i - t) 0) * t ^ (-(3:ℝ)/5) := by
  have h1 : ∀ i ∈ Finset.range n, (f i) ^ (1.4:ℝ) =
      (14/25) * ∫ t in (0:ℝ)..M, max (f i - t) 0 * t ^ (-(3:ℝ)/5) :=
    fun i hi => rpow_as_integral (f i) M (hf i hi).1 (hf i hi).2
  rw [Finset.sum_congr rfl h1, ← Finset.mul_sum]
  congr 1
  rw [← intervalIntegral.integral_finset_sum
    (fun i _ => integrable_max_mul_weight (f i) 0 M)]
  apply intervalIntegral.integral_congr
  intro t _
  simp only
  exact (Finset.sum_mul _ _ _).symm

theorem sum_sq_repr (n : ℕ) (f : ℕ → ℝ) (M : ℝ)
    (hf : ∀ i ∈ Finset.range n, 0 ≤ f i ∧ f i ≤ M) :
    ∫ t in (0:ℝ)..M, (∑ i ∈ Finset.range n, max (f i - t) 0) =
      (∑ i ∈ Finset.range n, (f i) ^ 2) / 2 := by
  rw [intervalIntegral.integral_finset_sum
    (fun i _ => (continuous_max_cut (f i)).intervalIntegrable 0 M)]
  rw [Finset.sum_congr rfl
    (fun i hi => integral_max_eq (f i) M (hf i hi).1 (hf i hi).2)]
  rw [Finset.sum_div]

theorem integrable_cutsum_mul_weight (n : ℕ) (f : ℕ → ℝ) (a b : ℝ) :
    IntervalIntegrable (fun t : ℝ =>
      (∑ i ∈ Finset.range n, max (f i - t) 0) * t ^ (-(3:ℝ)/5))
      MeasureTheory.volume a b :=
  (integrable_weight a b).continuousOn_mul
    (continuous_finset_sum _ (fun i _ => continuous_max_cut (f i))).continuousOn

theorem sum_rpow_le (n : ℕ) (x y : ℕ → ℝ) (M : ℝ) (hM0 : 0 < M)
    (hx : ∀ i ∈ Finset.range n, 0 ≤ x i ∧ x i ≤ M)
    (hy : ∀ i ∈ Finset.range n, 0 ≤ y i ∧ y i ≤ M)
    (hdom : ∀ t : ℝ, ∑ i ∈ Finset.range n, max (y i - t) 0 ≤
      ∑ i ∈ Finset.range n, max (x i - t) 0) :
    ∑ i ∈ Finset.range n, (y i) ^ (1.4:ℝ) ≤ ∑ i ∈ Finset.range n, (x i) ^ (1.4:ℝ) := by
  rw [sum_rpow_repr n x M hx, sum_rpow_repr n y M hy]
  apply mul_le_mul_of_nonneg_left _ (by norm_num : (0:ℝ) ≤ 14/25)
  apply intervalIntegral.integral_mono_on hM0.le
    (integrable_cutsum_mul_weight n y 0 M) (integrable_cutsum_mul_weight n x 0 M)
  intro t ht
  exact mul_le_mul_of_nonneg_right (hdom t) (Real.rpow_nonneg ht.1 _)

theorem sum_rpow_lt (n : ℕ) (x y : ℕ → ℝ) (M : ℝ) (hM0 : 0 < M)
    (hx : ∀ i ∈ Finset.range n, 0 ≤ x i ∧ x i ≤ M)
    (hy : ∀ i ∈ Finset.range n, 0 ≤ y i ∧ y i ≤ M)
    (hdom : ∀ t : ℝ, ∑ i ∈ Finset.range n, max (y i - t) 0 ≤
      ∑ i ∈ Finset.range n, max (x i - t) 0)
    (hsq : ∑ i ∈ Finset.range n, (y i) ^ 2 < ∑ i ∈ Finset.range n, (x i) ^ 2) :
    ∑ i ∈ Finset.range n, (y i) ^ (1.4:ℝ) < ∑ i ∈ Finset.range n, (x i) ^ (1.4:ℝ) := by
  rw [sum_rpow_repr n x M hx, sum_rpow_repr n y M hy]
  apply mul_lt_mul_of_pos_left _ (by norm_num : (0:ℝ) < 14/25)
  have hDw_int : IntervalIntegrable (fun t : ℝ =>
      ((∑ i ∈ Finset.range n, max (y i - t) 0) -
        (∑ i ∈ Finset.range n, max (x i - t) 0)) * t ^ (-(3:ℝ)/5))
      MeasureTheory.volume 0 M :=
    (integrable_weight 0 M).continuousOn_mul
      ((continuous_finset_sum _ (fun i _ => continuous_max_cut (y i))).sub
        (continuous_finset_sum _ (fun i _ => continuous_max_cut (x i)))).continuousOn
  have hDc_int : IntervalIntegrable (fun t : ℝ =>
      ((∑ i ∈ Finset.range n, max (y i - t) 0) -
        (∑ i ∈ Finset.range n, max (x i - t) 0)) * M ^ (-(3:ℝ)/5))
      MeasureTheory.volume 0 M :=
    (((continuous_finset_sum _ (fun i _ => continuous_max_cut (y i))).sub
        (continuous_finset_sum _ (fun i _ => continuous_max_cut (x i)))).mul
      continuous_const).intervalIntegrable 0 M
  have hae : (fun t : ℝ =>
      ((∑ i ∈ Finset.range n, max (y i - t) 0) -
        (∑ i ∈ Finset.range n, max (x i - t) 0)) * t ^ (-(3:ℝ)/5))
      ≤ᵐ[MeasureTheory.volume.restrict (Set.Icc (0:ℝ) M)]
      (fun t : ℝ =>
      ((∑ i ∈ Finset.range n, max (y i - t) 0) -
        (∑ i ∈ Finset.range n, max (x i - t) 0)) * M ^ (-(3:ℝ)/5)) := by
    refine (MeasureTheory.ae_restrict_iff' measurableSet_Icc).mpr ?_
    have h0 : MeasureTheory.volume ({(0:ℝ)} : Set ℝ) = 0 := Real.volume_singleton
    filter_upwards [MeasureTheory.measure_zero_iff_ae_nmem.mp h0] with t ht htIcc
    have ht0 : 0 < t := lt_of_le_of_ne htIcc.1 (Ne.symm (by simpa using ht))
    have hw : M ^ (-(3:ℝ)/5) ≤ t ^ (-(3:ℝ)/5) :=
      Real.rpow_le_rpow_of_nonpos ht0 htIcc.2 (by norm_num)
    have hD : (∑ i ∈ Finset.range n, max (y i - t) 0) -
        (∑ i ∈ Finset.range n, max (x i - t) 0) ≤ 0 := by
      have := hdom t
      linarith
    exact mul_le_mul_of_nonpos_left hw hD
  have hmono := intervalIntegral.integral_mono_ae_restrict hM0.le hDw_int hDc_int hae
  have hsub1 : ∫ t in (0:ℝ)..M,
      ((∑ i ∈ Finset.range n, max (y i - t) 0) -
        (∑ i ∈ Finset.range n, max (x i - t) 0)) * t ^ (-(3:ℝ)/5) =
      (∫ t in (0:ℝ)..M,
        (∑ i ∈ Finset.range n, max (y i - t) 0) * t ^ (-(3:ℝ)/5)) -
      ∫ t in (0:ℝ)..M,
        (∑ i ∈ Finset.range n, max (x i - t) 0) * t ^ (-(3:ℝ)/5) := by
    rw [← intervalIntegral.integral_sub (integrable_cutsum_mul_weight n y 0 M)
      (integrable_cutsum_mul_weight n x 0 M)]
    apply intervalIntegral.integral_congr
    intro t _
    simp only
    ring
  have hsub2 : ∫ t in (0:ℝ)..M,
      ((∑ i ∈ Finset.range n, max (y i - t) 0) -
        (∑ i ∈ Finset.range n, max (x i - t) 0)) * M ^ (-(3:ℝ)/5) =
      M ^ (-(3:ℝ)/5) *
        ((∑ i ∈ Finset.range n, (y i) ^ 2) / 2 -
         (∑ i ∈ Finset.range n, (x i) ^ 2) / 2) := by
    have hc : ∫ t in (0:ℝ)..M,
        ((∑ i ∈ Finset.range n, max (y i - t) 0) -
          (∑ i ∈ Finset.range n, max (x i - t) 0)) * M ^ (-(3:ℝ)/5) =
        ∫ t in (0:ℝ)..M, M ^ (-(3:ℝ)/5) *
          ((∑ i ∈ Finset.range n, max (y i - t) 0) -
            (∑ i ∈ Finset.range n, max (x i - t) 0)) := by
      apply intervalIntegral.integral_congr
      intro t _
      simp only
      ring
    rw [hc, intervalIntegral.integral_const_mul]
    congr 1
    rw [intervalIntegral.integral_sub
      ((continuous_finset_sum _ (fun i _ => continuous_max_cut (y i))).intervalIntegrable 0 M :
        IntervalIntegrable _ MeasureTheory.volume 0 M)
      ((continuous_finset_sum _ (fun i _ => continuous_max_cut (x i))).intervalIntegrable 0 M :
        IntervalIntegrable _ MeasureTheory.volume 0 M),
      sum_sq_repr n y M hy, sum_sq_repr n x M hx]
  have hMpos : 0 < M ^ (-(3:ℝ)/5) := Real.rpow_pos_of_pos hM0 _
  have hfinal : M ^ (-(3:ℝ)/5) *
      ((∑ i ∈ Finset.range n, (y i) ^ 2) / 2 -
       (∑ i ∈ Finset.range n, (x i) ^ 2) / 2) < 0 := by
    apply mul_neg_of_pos_of_neg hMpos
    linarith
  rw [hsub1, hsub2] at hmono
  linarith

/-- C9 (amended): on nonnegative terrain (every ground height and water depth
`≥ 0` — where the real power `h ^ 1.4` is defined, monotone and strictly
convex), the diagnostic potential `Φ = Σ height^1.4` satisfies the claimed
invariant across one applied pass: `Φ_min ≤ Φ_new`, `Φ_new ≤ Φ_old`, and
`Φ_new < Φ_old` whenever the pass recorded at least one flow-update.  The side
hypotheses (priority order Nodup and in bounds, tolerance `≥ 0`) hold in every
landscape built by `create`. -/
theorem potential_monotonic_amended (ls : Landscape)
    (hnd : ls.points_idx.Nodup)
    (hidx : ∀ j ∈ ls.points_idx, j < ls.points.length)
    (hε : 0 ≤ ls.precision)
    (hgw : ∀ p ∈ ls.points, 0 ≤ p.ground ∧ 0 ≤ p.water) :
    ls.calc_state_lbound ≤ (ls.pass).calc_state ∧
    (ls.pass).calc_state ≤ ls.calc_state ∧
    (ls.scanUpdates ≠ [] → (ls.pass).calc_state < ls.calc_state) := by
  have hbounds : ∀ wu ∈ ls.scanUpdates,
      wu.from_idx < ls.points.length ∧ wu.to_idx < ls.points.length :=
    fun wu hwu => ⟨(scan_inBounds hidx hwu).1, (scan_inBounds hidx hwu).2.1⟩
  have hbf : ∀ wu ∈ ls.scanUpdates, wu.from_idx < ls.points.length :=
    fun wu hwu => (hbounds wu hwu).1
  have hbt : ∀ wu ∈ ls.scanUpdates, wu.to_idx < ls.points.length :=
    fun wu hwu => (hbounds wu hwu).2
  have hpasspts : (ls.pass).points = applyUpdates ls.points ls.scanUpdates := rfl
  have hcsold : ls.calc_state = ∑ i ∈ Finset.range ls.points.length,
      (((getP ls.points i).get_height : ℚ) : ℝ) ^ (1.4:ℝ) := by
    unfold Landscape.calc_state
    rw [sum_map_getP]
  have hcsnew : (ls.pass).calc_state = ∑ i ∈ Finset.range ls.points.length,
      (((getP (applyUpdates ls.points ls.scanUpdates) i).get_height : ℚ) : ℝ)
        ^ (1.4:ℝ) := by
    unfold Landscape.calc_state
    rw [hpasspts, sum_map_getP, length_applyUpdates]
  have hlb : ls.calc_state_lbound = ∑ i ∈ Finset.range ls.points.length,
      (((getP ls.points i).ground : ℚ) : ℝ) ^ (1.4:ℝ) := by
    unfold Landscape.calc_state_lbound
    rw [sum_map_getP]
  have hY : ∀ i ∈ Finset.range ls.points.length,
      (((getP (applyUpdates ls.points ls.scanUpdates) i).get_height : ℚ) : ℝ) =
      (((getP ls.points i).get_height : ℚ) : ℝ) +
        ((inFlow ls.scanUpdates i : ℚ) : ℝ) -
        ((outFlow ls.scanUpdates i : ℚ) : ℝ) := by
    intro i _
    rw [getP_applyUpdates ls.scanUpdates ls.points hbounds i]
    simp only [Point.get_height]
    push_cast
    ring
  have hgroundP : ∀ i, i < ls.points.length → 0 ≤ (getP ls.points i).ground := by
    intro i hi
    rw [getP, List.getD_eq_getElem _ _ hi]
    exact (hgw _ (List.getElem_mem hi)).1
  have hpassw : ∀ p ∈ (ls.pass).points, 0 ≤ p.water :=
    pass_water_nonneg hnd hidx hε (fun p hp => (hgw p hp).2)
  have hpassW : ∀ i, i < ls.points.length →
      0 ≤ (getP (applyUpdates ls.points ls.scanUpdates) i).water := by
    intro i hi
    have hi' : i < (ls.pass).points.length := by
      rw [hpasspts, length_applyUpdates]
      exact hi
    have := hpassw _ (List.getElem_mem hi')
    rw [← List.getD_eq_getElem (ls.pass).points _ hi'] at this
    rw [hpasspts] at this
    exact this
  have hpassG : ∀ i, (getP (applyUpdates ls.points ls.scanUpdates) i).ground =
      (getP ls.points i).ground := by
    intro i
    rw [getP_applyUpdates ls.scanUpdates ls.points hbounds i]
  have hXnn : ∀ i, i < ls.points.length → 0 ≤ (getP ls.points i).get_height := by
    intro i hi
    rw [getP, List.getD_eq_getElem _ _ hi]
    obtain ⟨h1, h2⟩ := hgw _ (List.getElem_mem hi)
    simp only [Point.get_height]
    linarith
  have hYnn : ∀ i, i < ls.points.length →
      0 ≤ (getP (applyUpdates ls.points ls.scanUpdates) i).get_height := by
    intro i hi
    have h1 := hpassW i hi
    have h2 := hgroundP i hi
    simp only [Point.get_height, hpassG i]
    linarith
  have hXYnn : ∀ i ∈ Finset.range ls.points.length,
      (0:ℝ) ≤ (((getP ls.points i).get_height : ℚ) : ℝ) +
        (((getP (applyUpdates ls.points ls.scanUpdates) i).get_height : ℚ) : ℝ) := by
    intro i hi
    rw [Finset.mem_range] at hi
    have h1 : (0:ℝ) ≤ (((getP ls.points i).get_height : ℚ) : ℝ) := by
      exact_mod_cast hXnn i hi
    have h2 : (0:ℝ) ≤
        (((getP (applyUpdates ls.points ls.scanUpdates) i).get_height : ℚ) : ℝ) := by
      exact_mod_cast hYnn i hi
    linarith
  have hM0 : (0:ℝ) < 1 + ∑ i ∈ Finset.range ls.points.length,
      ((((getP ls.points i).get_height : ℚ) : ℝ) +
        (((getP (applyUpdates ls.points ls.scanUpdates) i).get_height : ℚ) : ℝ)) := by
    have := Finset.sum_nonneg hXYnn
    linarith
  have hXb : ∀ i ∈ Finset.range ls.points.length,
      0 ≤ (((getP ls.points i).get_height : ℚ) : ℝ) ∧
      (((getP ls.points i).get_height : ℚ) : ℝ) ≤
        1 + ∑ i ∈ Finset.range ls.points.length,
          ((((getP ls.points i).get_height : ℚ) : ℝ) +
            (((getP (applyUpdates ls.points ls.scanUpdates) i).get_height : ℚ) : ℝ)) := by
    intro i hi
    have h1 : (0:ℝ) ≤ (((getP ls.points i).get_height : ℚ) : ℝ) := by
      exact_mod_cast hXnn i (Finset.mem_range.mp hi)
    have h2 : (0:ℝ) ≤
        (((getP (applyUpdates ls.points ls.scanUpdates) i).get_height : ℚ) : ℝ) := by
      exact_mod_cast hYnn i (Finset.mem_range.mp hi)
    have h3 := Finset.single_le_sum hXYnn hi
    exact ⟨h1, by linarith⟩
  have hYb : ∀ i ∈ Finset.range ls.points.length,
      0 ≤ (((getP (applyUpdates ls.points ls.scanUpdates) i).get_height : ℚ) : ℝ) ∧
      (((getP (applyUpdates ls.points ls.scanUpdates) i).get_height : ℚ) : ℝ) ≤
        1 + ∑ i ∈ Finset.range ls.points.length,
          ((((getP ls.points i).get_height : ℚ) : ℝ) +
            (((getP (applyUpdates ls.points ls.scanUpdates) i).get_height : ℚ) : ℝ)) := by
    intro i hi
    have h1 : (0:ℝ) ≤ (((getP ls.points i).get_height : ℚ) : ℝ) := by
      exact_mod_cast hXnn i (Finset.mem_range.mp hi)
    have h2 : (0:ℝ) ≤
        (((getP (applyUpdates ls.points ls.scanUpdates) i).get_height : ℚ) : ℝ) := by
      exact_mod_cast hYnn i (Finset.mem_range.mp hi)
    have h3 := Finset.single_le_sum hXYnn hi
    exact ⟨h2, by linarith⟩
  have hay : ∀ wu ∈ ls.scanUpdates, (0:ℝ) ≤ ((wu.water : ℚ) : ℝ) := by
    intro wu hwu
    exact_mod_cast (scan_water_pos hε hwu).le
  have hcapR : ∀ wu ∈ ls.scanUpdates, 2 * ((wu.water : ℚ) : ℝ) ≤
      (((getP ls.points wu.from_idx).get_height : ℚ) : ℝ) -
      (((getP ls.points wu.to_idx).get_height : ℚ) : ℝ) := by
    intro wu hwu
    exact_mod_cast scan_cap hwu
  have hdom : ∀ t : ℝ,
      ∑ i ∈ Finset.range ls.points.length,
        max ((((getP (applyUpdates ls.points ls.scanUpdates) i).get_height : ℚ) : ℝ)
          - t) 0 ≤
      ∑ i ∈ Finset.range ls.points.length,
        max ((((getP ls.points i).get_height : ℚ) : ℝ) - t) 0 := by
    intro t
    exact hockey_stick ls.points.length
      (fun i => (((getP ls.points i).get_height : ℚ) : ℝ))
      (fun i => (((getP (applyUpdates ls.points ls.scanUpdates) i).get_height : ℚ) : ℝ))
      ls.scanUpdates hY hbf hbt hay hcapR
      (fun u => scan_countFrom_le_two hnd u)
      (fun v => scan_countTo_le_two hnd v) t
  have hmono : (ls.pass).calc_state ≤ ls.calc_state := by
    rw [hcsold, hcsnew]
    exact sum_rpow_le ls.points.length
      (fun i => (((getP ls.points i).get_height : ℚ) : ℝ))
      (fun i => (((getP (applyUpdates ls.points ls.scanUpdates) i).get_height : ℚ) : ℝ))
      _ hM0 hXb hYb hdom
  refine ⟨?_, hmono, ?_⟩
  · rw [hlb, hcsnew]
    apply Finset.sum_le_sum
    intro i hi
    rw [Finset.mem_range] at hi
    apply Real.rpow_le_rpow
    · exact_mod_cast hgroundP i hi
    · have h1 := hpassW i hi
      have heq := hpassG i
      have hle : (getP ls.points i).ground ≤
          (getP (applyUpdates ls.points ls.scanUpdates) i).get_height := by
        simp only [Point.get_height, heq]
        linarith
      exact_mod_cast hle
    · norm_num
  · intro hne0
    have hsq : ∑ i ∈ Finset.range ls.points.length,
        ((((getP (applyUpdates ls.points ls.scanUpdates) i).get_height : ℚ) : ℝ)) ^ 2 <
        ∑ i ∈ Finset.range ls.points.length,
        ((((getP ls.points i).get_height : ℚ) : ℝ)) ^ 2 :=
      quadratic_strict ls.points.length
        (fun i => (((getP ls.points i).get_height : ℚ) : ℝ))
        (fun i => (((getP (applyUpdates ls.points ls.scanUpdates) i).get_height : ℚ) : ℝ))
        ls.scanUpdates hne0 hY hbf hbt
        (fun wu hwu => by exact_mod_cast scan_water_pos hε hwu)
        hcapR (fun wu hwu => scan_adjacent hwu)
        (fun u => scan_countEdge_le_one hnd hε u)
    rw [hcsold, hcsnew]
    exact sum_rpow_lt ls.points.length
      (fun i => (((getP ls.points i).get_height : ℚ) : ℝ))
      (fun i => (((getP (applyUpdates ls.points ls.scanUpdates) i).get_height : ℚ) : ℝ))
      _ hM0 hXb hYb hdom hsq

/-- C9 witness: the amended theorem applied at the concrete nonnegative
landscape with grounds `[3, 1]` and waters `[2, 0]`, whose scan records the
single flow-update `0 → 1` of amount `2`; all hypotheses are discharged by
evaluation. -/
theorem potential_monotonic_amended_witness :
    ({ points := [⟨3, 2⟩, ⟨1, 0⟩], points_idx := [0, 1], results := [3, 1], precision := 1 / 100 } : Landscape).scanUpdates ≠ [] ∧
    ({ points := [⟨3, 2⟩, ⟨1, 0⟩], points_idx := [0, 1], results := [3, 1], precision := 1 / 100 } : Landscape).calc_state_lbound ≤
      (Landscape.pass { points := [⟨3, 2⟩, ⟨1, 0⟩], points_idx := [0, 1], results := [3, 1], precision := 1 / 100 }).calc_state ∧
    (Landscape.pass { points := [⟨3, 2⟩, ⟨1, 0⟩], points_idx := [0, 1], results := [3, 1], precision := 1 / 100 }).calc_state <
      ({ points := [⟨3, 2⟩, ⟨1, 0⟩], points_idx := [0, 1], results := [3, 1], precision := 1 / 100 } : Landscape).calc_state := by
  have hscan : ({ points := [⟨3, 2⟩, ⟨1, 0⟩], points_idx := [0, 1], results := [3, 1], precision := 1 / 100 } : Landscape).scanUpdates ≠ [] := by
    have h : ({ points := [⟨3, 2⟩, ⟨1, 0⟩], points_idx := [0, 1], results := [3, 1], precision := 1 / 100 } : Landscape).scanUpdates = [⟨0, 1, 2⟩] := by
      norm_num [Landscape.scanUpdates, Landscape.updatesFor, Landscape.sendWaterTo,
        Landscape.neighbors, Iter1D.toListFuel, Iter1D.next, getP, Point.get_height,
        List.filter, List.flatMap]
    rw [h]
    simp
  have h := potential_monotonic_amended
    { points := [⟨3, 2⟩, ⟨1, 0⟩], points_idx := [0, 1], results := [3, 1], precision := 1 / 100 }
    (by decide)
    (by intro j hj; fin_cases hj <;> norm_num)
    (by norm_num)
    (by intro p hp; fin_cases hp <;> exact ⟨by norm_num, by norm_num⟩)
  exact ⟨hscan, h.1, h.2.2 hscan⟩
